import Mathlib

/-!
Verification of the incremental analysis pipeline of a code-quality
extension: the block-partitioning + content-hash caching layer
(`src/utils/cacheManager.ts`), the priority-tiered analysis scheduler
(`src/utils/analysisScheduler.ts`), the diagnostic batching layer
(`src/utils/diagnosticManager.ts`) and the duplicate-code detector
(`src/analyzers/duplicateCodeAnalyzer.ts`).

The TypeScript sources are embedded shallowly:

* a JavaScript `Map` is an insertion-ordered association list
  (`Map.set` replaces in place when the key exists, appends otherwise);
* JavaScript numbers used as line numbers are `Nat` where the source
  keeps them non-negative (`Math.max(0, _)` is `Nat` subtraction) and
  `Int` where they can go negative (brace counters, hash values,
  line-shift deltas);
* the 32-bit wrapping of `x & x` / `x << 5` in the duplicate detector's
  line hash is exact `Int` arithmetic reduced modulo 2^32 into
  `[-2^31, 2^31)`; the unwrapped double arithmetic of the combined
  block hashes is modelled by `roundDouble`, the exact
  round-to-nearest-even binary64 rounding of an integer, so that the
  model follows IEEE-754 evaluation bit for bit;
* `async`/`await` interleaving in the scheduler is modelled by counting
  suspension points (each `await` is one) and letting an environment
  action (a competing run or a cancellation) happen during a chosen
  suspension.

All definitions are executable; fuel arguments, where present, are
initialized to an exact bound so they never change the semantics.
-/

namespace CleanCode

/-! ## Data model: issues (src/models/codeIssue.ts) -/

/-- `vscode.Position`: line/character pair.  Lines are `Int` because the
re-anchoring arithmetic of the cache can shift them by a negative delta. -/
structure VPos where
  line : Int
  character : Int
deriving DecidableEq, Repr

/-- `vscode.Range`: start and end positions. -/
structure VRange where
  startPos : VPos
  endPos : VPos
deriving DecidableEq, Repr

/-- `IssueSeverity` from src/models/codeIssue.ts. -/
inductive IssueSeverity where
  | error | warning | information | hint
deriving DecidableEq, Repr

/-- `CodeIssue` from src/models/codeIssue.ts (the fields the pipeline
touches: type tag, message, range, severity, suggestions). -/
structure CodeIssue where
  type : String
  message : String
  range : VRange
  severity : IssueSeverity
  suggestions : List String
deriving DecidableEq, Repr

/-! ## A JavaScript `Map` as an insertion-ordered association list -/

/-- `Map.get`: first (only) binding of the key. -/
def mapGet {K V : Type} [BEq K] (m : List (K × V)) (k : K) : Option V :=
  match m.find? (fun p => p.1 == k) with
  | some p => some p.2
  | none => none

/-- `Map.has`. -/
def mapHas {K V : Type} [BEq K] (m : List (K × V)) (k : K) : Bool :=
  (mapGet m k).isSome

/-- `Map.set`: replace in place if the key is present, else append. -/
def mapSet {K V : Type} [BEq K] (m : List (K × V)) (k : K) (v : V) :
    List (K × V) :=
  match m with
  | [] => [(k, v)]
  | (k', v') :: rest =>
    if k' == k then (k', v) :: rest else (k', v') :: mapSet rest k v

/-- `Map.delete`: remove the binding of the key, if any. -/
def mapDelete {K V : Type} [BEq K] (m : List (K × V)) (k : K) :
    List (K × V) :=
  match m with
  | [] => []
  | (k', v') :: rest =>
    if k' == k then rest else (k', v') :: mapDelete rest k

/-! ## Result cache (src/utils/cacheManager.ts) -/

/-- `BlockInfo` from src/utils/cacheManager.ts. -/
structure BlockInfo where
  startLine : Nat
  endLine : Nat
  content : String
deriving DecidableEq, Repr

/-- `CachedResult` from src/utils/cacheManager.ts. -/
structure CachedResult where
  issues : List CodeIssue
  timestamp : Int
  startLine : Nat
  endLine : Nat
deriving DecidableEq, Repr

/-- The mutable state of `CacheManager`: the result map and the
recency list used for LRU eviction.  `maxCacheSize` is the literal 100
of the source. -/
structure CacheState where
  cache : List (String × CachedResult)
  recentlyUsed : List String
deriving DecidableEq, Repr

def maxCacheSize : Nat := 100

def emptyCache : CacheState := ⟨[], []⟩

/-- `CacheManager.updateRecentlyUsed`: splice the key out of the
recency list (first occurrence, as `indexOf`/`splice` does) and unshift
it at the front. -/
def updateRecentlyUsed (ru : List String) (key : String) : List String :=
  key :: ru.erase key

/-- One iteration bound of the `while` loop of
`CacheManager.enforceCacheLimit`; the fuel is pinned to the length of
the recency list, which the loop shortens by one each iteration, so the
fuel is never exhausted before the loop's own exit condition. -/
def enforceLoop : Nat → List (String × CachedResult) → List String →
    List (String × CachedResult) × List String
  | 0, c, ru => (c, ru)
  | fuel + 1, c, ru =>
    if maxCacheSize < c.length ∧ ru ≠ [] then
      -- `pop()` takes the last element; `if (lruKey)` skips the empty
      -- string (JS falsiness), which never holds for generated keys.
      let lruKey := ru.getLastD ""
      enforceLoop fuel (if lruKey = "" then c else mapDelete c lruKey)
        ru.dropLast
    else (c, ru)

/-- `CacheManager.enforceCacheLimit`. -/
def enforceCacheLimit (s : CacheState) : CacheState :=
  let (c, ru) := enforceLoop s.recentlyUsed.length s.cache s.recentlyUsed
  ⟨c, ru⟩

/-- The cache key `${analyzerId}_${blockHash}`.  `hashContent` (md5 in
the source) is a parameter of the model; theorems that need freedom
from hash collisions say so explicitly. -/
def cacheKey (hashContent : String → String) (analyzerId content : String) :
    String :=
  analyzerId ++ "_" ++ hashContent content

/-- `CacheManager.storeResults`: overwrite the entry for the content
hash, recording the block's current position, refresh recency, enforce
the size limit.  `now` stands for `Date.now()`. -/
def storeResults (hashContent : String → String) (s : CacheState)
    (analyzerId : String) (blockInfo : BlockInfo) (issues : List CodeIssue)
    (now : Int) : CacheState :=
  let key := cacheKey hashContent analyzerId blockInfo.content
  let c := mapSet s.cache key
    { issues := issues, timestamp := now,
      startLine := blockInfo.startLine, endLine := blockInfo.endLine }
  let ru := updateRecentlyUsed s.recentlyUsed key
  enforceCacheLimit ⟨c, ru⟩

/-- `CacheManager.adjustIssueRanges`: shift every issue's lines by the
difference between the block's current and original start lines. -/
def adjustIssueRanges (issues : List CodeIssue)
    (currentStartLine originalStartLine : Nat) : List CodeIssue :=
  let lineDiff : Int := (currentStartLine : Int) - (originalStartLine : Int)
  if lineDiff = 0 then issues
  else issues.map (fun issue =>
    { issue with range :=
      { startPos := { line := issue.range.startPos.line + lineDiff,
                      character := issue.range.startPos.character },
        endPos := { line := issue.range.endPos.line + lineDiff,
                    character := issue.range.endPos.character } } })

/-- `CacheManager.getCachedResults`: per block, a hit returns the
stored issues re-anchored to the block's current start line and
refreshes recency; a miss yields `none`. -/
def getCachedResults (hashContent : String → String) (s : CacheState)
    (analyzerId : String) (blockInfos : List BlockInfo) :
    List (Option (List CodeIssue)) × CacheState :=
  blockInfos.foldl
    (fun (acc : List (Option (List CodeIssue)) × CacheState) blockInfo =>
      let (results, st) := acc
      let key := cacheKey hashContent analyzerId blockInfo.content
      match mapGet st.cache key with
      | some cachedResult =>
        let st' : CacheState :=
          ⟨st.cache, updateRecentlyUsed st.recentlyUsed key⟩
        let adjusted := adjustIssueRanges cachedResult.issues
          blockInfo.startLine cachedResult.startLine
        (results ++ [some adjusted], st')
      | none => (results ++ [none], st))
    ([], s)

/-! ## Block partitioner (src/utils/cacheManager.ts) -/

/-- A document, as the partitioner reads it: the list of its lines. -/
def Document := List String

/-- `CacheManager.getBlockContent`: the text of lines
`startLine..endLine`, each followed by `"\n"`. -/
def getBlockContent (doc : List String) (startLine endLine : Nat) : String :=
  (List.range' startLine (endLine + 1 - startLine)).foldl
    (fun content i => content ++ doc.getD i "" ++ "\n") ""

/-- Scanner state of `CacheManager.findNaturalBlocks`. -/
structure ScanState where
  blocks : List BlockInfo
  currentBlockStart : Nat
  braceCount : Int
  inBlock : Bool
deriving Repr

/-- One character step of the brace scan in
`CacheManager.findNaturalBlocks`.  `Math.max(0, i - 1)` is `Nat`
subtraction. -/
def scanChar (doc : List String) (i : Nat) (st : ScanState) (ch : Char) :
    ScanState :=
  if ch = '{' then
    let st :=
      if ¬st.inBlock ∧ st.braceCount = 0 then
        { st with inBlock := true, currentBlockStart := i - 1 }
      else st
    { st with braceCount := st.braceCount + 1 }
  else if ch = '}' then
    let st := { st with braceCount := st.braceCount - 1 }
    if st.inBlock ∧ st.braceCount = 0 then
      let st := { st with inBlock := false }
      if 3 < i - st.currentBlockStart then
        { st with blocks := st.blocks ++
            [{ startLine := st.currentBlockStart, endLine := i,
               content := getBlockContent doc st.currentBlockStart i }] }
      else st
    else st
  else st

/-- One step of the gap-filling loop of `findNaturalBlocks`: emit a
synthetic gap block when the next natural block starts after
`lastEndLine + 1`, then append the natural block and advance
`lastEndLine`. -/
def fillStep (doc : List String) (acc : List BlockInfo × Int)
    (block : BlockInfo) : List BlockInfo × Int :=
  ((if acc.2 + 1 < (block.startLine : Int) then
      acc.1 ++ [{ startLine := (acc.2 + 1).toNat,
                  endLine := block.startLine - 1,
                  content := getBlockContent doc (acc.2 + 1).toNat
                    (block.startLine - 1) }]
    else acc.1) ++ [block], (block.endLine : Int))

/-- The brace scan of `findNaturalBlocks`: raw natural blocks in
document order. -/
def scanBlocks (doc : List String) : List BlockInfo :=
  (doc.enum.foldl
    (fun st (p : Nat × String) => p.2.data.foldl (scanChar doc p.1) st)
    { blocks := [], currentBlockStart := 0, braceCount := 0,
      inBlock := false }).blocks

/-- The trailing gap block of `findNaturalBlocks`, appended when the
last natural block does not reach the end of the document. -/
def fillFinal (doc : List String) (res : List BlockInfo × Int) :
    List BlockInfo :=
  res.1 ++
    (if res.2 < (doc.length : Int) - 1 then
      [{ startLine := (res.2 + 1).toNat, endLine := doc.length - 1,
         content := getBlockContent doc (res.2 + 1).toNat
           (doc.length - 1) }]
    else [])

/-- `CacheManager.findNaturalBlocks`: brace-delimited blocks of more
than 4 lines, with the gaps between them filled so the union of the
returned list is the whole document; empty when no brace-delimited
block was found. -/
def findNaturalBlocks (doc : List String) : List BlockInfo :=
  if scanBlocks doc = [] then []
  else fillFinal doc ((scanBlocks doc).foldl (fillStep doc) ([], -1))

/-- The fixed-size fallback loop of `divideDocumentIntoBlocks`
(`for (startLine = 0; startLine < lineCount; startLine += blockSize)`).
The fuel is `lineCount`, an upper bound on the iteration count for any
positive `blockSize`, so it never cuts the loop short. -/
def fixedBlocksLoop (doc : List String) (blockSize : Nat) :
    Nat → Nat → List BlockInfo
  | 0, _ => []
  | fuel + 1, startLine =>
    if startLine < doc.length then
      let endLine := min (startLine + blockSize - 1) (doc.length - 1)
      { startLine := startLine, endLine := endLine,
        content := getBlockContent doc startLine endLine } ::
        fixedBlocksLoop doc blockSize fuel (startLine + blockSize)
    else []

/-- `CacheManager.divideDocumentIntoBlocks`. -/
def divideDocumentIntoBlocks (doc : List String) (blockSize : Nat := 50) :
    List BlockInfo :=
  let naturalBlocks := findNaturalBlocks doc
  if naturalBlocks.length > 0 then naturalBlocks
  else fixedBlocksLoop doc blockSize doc.length 0

/-- The re-anchoring transformation the spec describes for a cache hit
at a shifted position: every line of an issue moved by `d`. -/
def specShiftIssue (d : Int) (issue : CodeIssue) : CodeIssue :=
  { issue with range :=
    { startPos := { line := issue.range.startPos.line + d,
                    character := issue.range.startPos.character },
      endPos := { line := issue.range.endPos.line + d,
                  character := issue.range.endPos.character } } }

/-! ## Analysis scheduler (src/utils/analysisScheduler.ts)

The scheduler is `async`: every `await` (each tier delay and each
`analyzer.analyze` call) is a suspension at which the host may run
other events — in particular a competing `scheduleAnalysis` (which
mints a fresh token) or `cancelCurrentAnalysis` (token := null).  The
model counts suspensions and lets an environment function choose the
action taken during each one.  The synchronous `getAST` call is not a
suspension and has no effect on the properties here. -/

/-- `AnalyzerPriority` from src/analyzers/analyzerInterface.ts. -/
inductive AnalyzerPriority where
  | high | medium | low
deriving DecidableEq, Repr

/-- The `CodeAnalyzer` contract (src/analyzers/analyzerInterface.ts)
with its behaviour abstracted: a per-document outcome and a per-block
outcome, each either a list of issues or a thrown error. -/
inductive AnalyzeOutcome where
  | ok (issues : List CodeIssue)
  | err
deriving DecidableEq, Repr

structure SchedAnalyzer where
  id : String
  priority : AnalyzerPriority
  supportsBlockAnalysis : Bool
  enabled : Bool
  analyzeDoc : AnalyzeOutcome
  analyzeBlock : BlockInfo → AnalyzeOutcome

/-- What one run sees in `currentAnalysisToken`: its own token, some
other run's token, or `null`. -/
inductive TokenView where
  | ours | other | null
deriving DecidableEq, Repr

/-- The environment's action during one suspension of the observed
run. -/
inductive EnvAction where
  | keep | newRun | cancel
deriving DecidableEq, Repr

/-- The token as the run observes it after `y` completed suspensions:
fresh until some suspension carried a `newRun` or `cancel` action. -/
def tokenAfter (env : Nat → EnvAction) : Nat → TokenView
  | 0 => .ours
  | y + 1 =>
    match env y with
    | .keep => tokenAfter env y
    | .newRun => .other
    | .cancel => .null

/-- Result of the per-block loop of
`AnalysisScheduler.processWithCaching`. -/
structure BlockRunResult where
  issues : List CodeIssue
  cache : CacheState
  yields : Nat
  thrown : Bool
deriving Repr

/-- The `for` loop of `processWithCaching`, over blocks paired with
their cache lookups.  A hit appends the cached issues without
suspending; a miss awaits `analyzer.analyze` (one suspension), stores
the result, appends it, then breaks if the token is null (the loop's
cancellation check tests `=== null` only, not token mismatch).  A
thrown analyzer rejects the promise: the whole run aborts. -/
def processBlocks (hf : String → String) (env : Nat → EnvAction)
    (a : SchedAnalyzer) :
    List (BlockInfo × Option (List CodeIssue)) → CacheState → Nat →
    BlockRunResult
  | [], st, y => ⟨[], st, y, false⟩
  | (b, cached) :: rest, st, y =>
    match cached with
    | some issues =>
      let r := processBlocks hf env a rest st y
      ⟨issues ++ r.issues, r.cache, r.yields, r.thrown⟩
    | none =>
      match a.analyzeBlock b with
      | .err => ⟨[], st, y + 1, true⟩
      | .ok issues =>
        let st' := storeResults hf st a.id b issues 0
        if tokenAfter env (y + 1) = .null then
          ⟨issues, st', y + 1, false⟩
        else
          let r := processBlocks hf env a rest st' (y + 1)
          ⟨issues ++ r.issues, r.cache, r.yields, r.thrown⟩

/-- `AnalysisScheduler.processWithCaching`. -/
def processWithCaching (hf : String → String) (env : Nat → EnvAction)
    (doc : List String) (a : SchedAnalyzer) (st : CacheState) (y : Nat) :
    BlockRunResult :=
  processBlocks hf env a
    ((divideDocumentIntoBlocks doc 50).zip
      (getCachedResults hf st a.id (divideDocumentIntoBlocks doc 50)).1)
    (getCachedResults hf st a.id (divideDocumentIntoBlocks doc 50)).2 y

/-- How one run of `scheduleAnalysis` ends (or is still going). -/
inductive RunStatus where
  | running | cancelled | thrown
deriving DecidableEq, Repr

/-- The observable state of one `scheduleAnalysis` run: accumulated
issues, the lists handed to `DiagnosticManager.updateDiagnostics` (one
per completed tier), the shared cache, the suspension count, and how
the run ended. -/
structure SchedState where
  allIssues : List CodeIssue
  published : List (List CodeIssue)
  cache : CacheState
  yields : Nat
  status : RunStatus
deriving Repr

/-- The per-analyzer loop inside one priority group (source lines
102–121): token check at the top of each iteration, then block-cached
or whole-document analysis. -/
def runGroup (hf : String → String) (env : Nat → EnvAction)
    (doc : List String) :
    List SchedAnalyzer → SchedState → SchedState
  | [], s => s
  | a :: rest, s =>
    if s.status ≠ .running then s
    else if tokenAfter env s.yields ≠ .ours then
      { s with status := .cancelled }
    else if a.supportsBlockAnalysis then
      let r := processWithCaching hf env doc a s.cache s.yields
      if r.thrown then
        { s with cache := r.cache, yields := r.yields, status := .thrown }
      else
        runGroup hf env doc rest
          { s with allIssues := s.allIssues ++ r.issues,
                   cache := r.cache, yields := r.yields }
    else
      match a.analyzeDoc with
      | .err => { s with yields := s.yields + 1, status := .thrown }
      | .ok issues =>
        runGroup hf env doc rest
          { s with allIssues := s.allIssues ++ issues,
                   yields := s.yields + 1 }

/-- The tier loop of `scheduleAnalysis` (source lines 80–125): skip
empty groups; for non-high tiers await the tier delay (one suspension)
and abort silently if the token changed; run the group's analyzers;
then hand the accumulated issues to the Diagnostic Batcher.  Note that
no token check happens between the last analyzer of a group and that
publish. -/
def runTiers (hf : String → String) (env : Nat → EnvAction)
    (doc : List String) (enabled : List SchedAnalyzer) :
    List AnalyzerPriority → SchedState → SchedState
  | [], s => s
  | p :: rest, s =>
    if s.status ≠ .running then s
    else
      match enabled.filter (fun a => a.priority = p) with
      | [] => runTiers hf env doc enabled rest s
      | g =>
        let s1 :=
          if p ≠ .high then
            if tokenAfter env (s.yields + 1) ≠ .ours then
              { s with yields := s.yields + 1, status := .cancelled }
            else { s with yields := s.yields + 1 }
          else s
        if s1.status ≠ .running then s1
        else
          let s2 := runGroup hf env doc g s1
          if s2.status ≠ .running then s2
          else
            runTiers hf env doc enabled rest
              { s2 with published := s2.published ++ [s2.allIssues] }

/-- `AnalysisScheduler.scheduleAnalysis`: filter the enabled
analyzers, then walk the tiers High → Medium → Low. -/
def scheduleAnalysisModel (hf : String → String) (env : Nat → EnvAction)
    (doc : List String) (analyzers : List SchedAnalyzer)
    (cache : CacheState) : SchedState :=
  runTiers hf env doc (analyzers.filter (fun a => a.enabled))
    [.high, .medium, .low]
    { allIssues := [], published := [], cache := cache, yields := 0,
      status := .running }

/-! ## Diagnostic batcher (src/utils/diagnosticManager.ts) -/

/-- `vscode.Diagnostic` as `updateDiagnostics` builds it: range,
message, converted severity, source tag, and the issue type as code. -/
structure Diagnostic where
  range : VRange
  message : String
  severity : Nat
  source : String
  code : String
deriving DecidableEq, Repr

/-- `DiagnosticManager.convertSeverity`, with the numeric values of
`vscode.DiagnosticSeverity` (Error 0, Warning 1, Information 2,
Hint 3). -/
def convertSeverity : IssueSeverity → Nat
  | .error => 0
  | .warning => 1
  | .information => 2
  | .hint => 3

/-- The issue-to-diagnostic conversion at the top of
`DiagnosticManager.updateDiagnostics`. -/
def toDiagnostic (issue : CodeIssue) : Diagnostic :=
  { range := issue.range, message := issue.message,
    severity := convertSeverity issue.severity,
    source := "Clean Code Assistant", code := issue.type }

/-- `DiagnosticManager.areDiagnosticsEqual`: same length and pointwise
equal message, severity, code and range (the source tag is not
compared). -/
def areDiagnosticsEqual (a b : List Diagnostic) : Bool :=
  a.length == b.length &&
  (a.zip b).all (fun p =>
    p.1.message == p.2.message && p.1.severity == p.2.severity &&
    p.1.code == p.2.code && p.1.range == p.2.range)

/-- The state of `DiagnosticManager`: the pending-update map, whether
the flush timer is armed (`updateTimer !== null`), and the visible
diagnostics (`diagnosticCollection`). -/
structure BatcherState where
  pendingUpdates : List (String × List Diagnostic)
  timerArmed : Bool
  visible : List (String × List Diagnostic)
deriving DecidableEq, Repr

/-- `DiagnosticManager.updateDiagnostics`: overwrite the pending entry
for the document and arm the flush timer unless one is already armed.
The boolean reports whether this call armed a timer. -/
def updateDiagnostics (st : BatcherState) (uri : String)
    (issues : List CodeIssue) : BatcherState × Bool :=
  let newDiagnostics := issues.map toDiagnostic
  if st.timerArmed then
    ({ st with pendingUpdates := mapSet st.pendingUpdates uri newDiagnostics },
     false)
  else
    ({ st with pendingUpdates := mapSet st.pendingUpdates uri newDiagnostics,
               timerArmed := true },
     true)

/-- One document of the flush loop in
`DiagnosticManager.applyBatchUpdate`: skip when the pending list equals
what is visible, otherwise replace it (and record the publish). -/
def batchStep (acc : List (String × List Diagnostic) × List String)
    (p : String × List Diagnostic) :
    List (String × List Diagnostic) × List String :=
  if areDiagnosticsEqual ((mapGet acc.1 p.1).getD []) p.2 then acc
  else (mapSet acc.1 p.1 p.2, acc.2 ++ [p.1])

/-- `DiagnosticManager.applyBatchUpdate`: flush every pending
document, then clear the pending map and the timer.  The second
component lists the documents whose visible diagnostics were actually
replaced. -/
def applyBatchUpdate (st : BatcherState) : BatcherState × List String :=
  ({ pendingUpdates := [], timerArmed := false,
     visible := (st.pendingUpdates.foldl batchStep (st.visible, [])).1 },
   (st.pendingUpdates.foldl batchStep (st.visible, [])).2)

/-! ## Duplicate-code detector (src/analyzers/duplicateCodeAnalyzer.ts)

Arithmetic model of JavaScript numbers in the detector:

* `simpleHash` uses `<< 5` and `& hash`, which coerce to signed 32-bit
  integers: modelled exactly by `wrap32`;
* `combineHashes`/`addToRollingHash` use plain `number` (IEEE-754
  binary64) arithmetic whose intermediate values are integers but can
  exceed 2^53: each operation is modelled by the exact
  round-to-nearest-even rounding `roundDouble` of the exact integer
  result, which is bit-for-bit what the doubles compute (integers
  remain integers under binary64 rounding, and no value here reaches
  the non-integral or infinite range);
* `charCodeAt` is the UTF-16 code unit, equal to `Char.toNat` for the
  Basic Multilingual Plane (all fixtures are ASCII);
* the division in the simplicity filter's "meaningful ratio" is exact
  for all realistic lengths, so `x / y < 0.5` is modelled as
  `2 * x < y`. -/

/-- JavaScript `ToInt32`. -/
def wrap32 (x : Int) : Int := (x + 2 ^ 31) % 2 ^ 32 - 2 ^ 31

/-- One character step of `DuplicateCodeAnalyzer.simpleHash`:
`hash = (hash << 5) - hash + char; hash = hash & hash`. -/
def simpleHashChar (h : Int) (c : Nat) : Int :=
  wrap32 (wrap32 (h * 32) - h + c)

/-- `DuplicateCodeAnalyzer.simpleHash` (the empty string hashes
to 0, as the early return does). -/
def simpleHash (str : String) : Int :=
  str.data.foldl (fun h ch => simpleHashChar h ch.toNat) 0

/-- Number of binary digits of `n` (`0` for `0`); the fuel equals the
argument, which bounds the iteration count. -/
def bitLenAux : Nat → Nat → Nat
  | 0, _ => 0
  | fuel + 1, n => if n = 0 then 0 else bitLenAux fuel (n / 2) + 1

def bitLen (n : Nat) : Nat := bitLenAux n n

/-- Round a natural number to 53 significant bits, ties to even — the
binary64 rounding of an exact integer result. -/
def roundNat (a : Nat) : Nat :=
  if a < 2 ^ 53 then a
  else
    (if 2 ^ (bitLen a - 53 - 1) < a % 2 ^ (bitLen a - 53) ∨
        (a % 2 ^ (bitLen a - 53) = 2 ^ (bitLen a - 53 - 1) ∧
         a / 2 ^ (bitLen a - 53) % 2 = 1) then
      a / 2 ^ (bitLen a - 53) + 1
    else a / 2 ^ (bitLen a - 53)) * 2 ^ (bitLen a - 53)

/-- The binary64 rounding of an integer (symmetric in sign, as IEEE
round-to-nearest is). -/
def roundDouble (x : Int) : Int :=
  if x < 0 then -(roundNat x.natAbs : Int) else (roundNat x.natAbs : Int)

/-- `DuplicateCodeAnalyzer.combineHashes`:
`currentHash * 37 + newHash + position` in doubles. -/
def combineHashes (currentHash newHash : Int) (position : Nat) : Int :=
  roundDouble (roundDouble (roundDouble (currentHash * 37) + newHash) +
    position)

/-- `DuplicateCodeAnalyzer.addToRollingHash`:
`currentHash * 7 + newHash + position` in doubles. -/
def addToRollingHash (currentHash newHash : Int) (position : Nat) : Int :=
  roundDouble (roundDouble (roundDouble (currentHash * 7) + newHash) +
    position)

/-- `CodeBlock` from duplicateCodeAnalyzer.ts. -/
structure CodeBlock where
  startLine : Nat
  endLine : Nat
deriving DecidableEq, Repr

/-- `DuplicateBlock` from duplicateCodeAnalyzer.ts. -/
structure DuplicateBlock where
  blocks : List CodeBlock
  content : String
deriving DecidableEq, Repr

/-- The whitespace class of JavaScript `\s` (ASCII part plus the
Unicode space characters). -/
def isJsWhitespace (c : Char) : Bool :=
  c = ' ' || c = '\t' || c = '\n' || c = '\r' || c = '\x0b' ||
  c = '\x0c' || c.toNat = 0xa0 || c.toNat = 0x1680 ||
  (0x2000 ≤ c.toNat && c.toNat ≤ 0x200a) || c.toNat = 0x2028 ||
  c.toNat = 0x2029 || c.toNat = 0x202f || c.toNat = 0x205f ||
  c.toNat = 0x3000 || c.toNat = 0xfeff

/-- The bracket/punctuation class stripped by the simplicity filter. -/
def isPunct (c : Char) : Bool :=
  c = '{' || c = '}' || c = '[' || c = ']' || c = '(' || c = ')' ||
  c = ';' || c = ',' || c = '.' || c = '"' || c = '\''

/-- `DuplicateCodeAnalyzer.isBlockTooSimple`: strip whitespace; short
content (< 20 chars) is too simple, as is content whose
meaningful-character ratio is below one half. -/
def isBlockTooSimple (content : String) : Bool :=
  if (content.data.filter (fun c => !(isJsWhitespace c))).length < 20 then
    true
  else
    decide (2 * ((content.data.filter (fun c => !(isJsWhitespace c))).filter
        (fun c => !(isPunct c))).length <
      (content.data.filter (fun c => !(isJsWhitespace c))).length)

/-- JavaScript `String.prototype.trim`: strip leading and trailing
whitespace (executable model of `String.trim`). -/
def trimStr (s : String) : String :=
  ⟨((s.data.dropWhile Char.isWhitespace).reverse.dropWhile
      Char.isWhitespace).reverse⟩

/-- `DuplicateCodeAnalyzer.getBlockContent`: the trimmed text of lines
`startLine..endLine`, each followed by a newline. -/
def dupBlockContent (doc : List String) (startLine endLine : Nat) : String :=
  (List.range' startLine (endLine + 1 - startLine)).foldl
    (fun content i => content ++ trimStr (doc.getD i "") ++ "\n") ""

/-- Replace the first list element satisfying `p` by `f` of it — the
in-place mutation of the found array element. -/
def replaceFirst {α : Type} (p : α → Bool) (f : α → α) : List α → List α
  | [] => []
  | x :: xs => if p x then f x :: xs else x :: replaceFirst p f xs

/-- `DuplicateCodeAnalyzer.processBlockHash` (the source reads
`blocks[0]` of lists that are nonempty by construction; the model reads
their heads). -/
def processBlockHash (doc : List String) (blockHash : Int)
    (startLine endLine : Nat)
    (state : List (Int × List CodeBlock) × List DuplicateBlock) :
    List (Int × List CodeBlock) × List DuplicateBlock :=
  match mapGet state.1 blockHash with
  | some existingBlocks =>
    (mapSet state.1 blockHash
      (existingBlocks ++ [⟨startLine, endLine⟩]),
     if existingBlocks.length = 1 then
       if !(isBlockTooSimple (dupBlockContent doc startLine endLine)) then
         state.2 ++ [⟨existingBlocks ++ [⟨startLine, endLine⟩],
           dupBlockContent doc startLine endLine⟩]
       else state.2
     else if 1 < existingBlocks.length then
       replaceFirst
         (fun d => d.blocks.length == existingBlocks.length &&
           (d.blocks.head?.map CodeBlock.startLine ==
            existingBlocks.head?.map CodeBlock.startLine))
         (fun d => ⟨d.blocks ++ [⟨startLine, endLine⟩], d.content⟩)
         state.2
     else state.2)
  | none =>
    (mapSet state.1 blockHash [⟨startLine, endLine⟩], state.2)

/-- The initial combined hash of the minimum window at `startLine`. -/
def initialWindowHash (lineHashes : List Int)
    (startLine minBlockSize : Nat) : Int :=
  (List.range minBlockSize).foldl
    (fun h i => combineHashes h (lineHashes.getD (startLine + i) 0) i) 0

/-- The inner rolling-window loop of `findDuplicateBlocksOptimized`:
sizes `minBlockSize + 1` up to the end of the document. -/
def rollWindows (doc : List String) (lineHashes : List Int)
    (startLine : Nat) (sizes : List Nat)
    (acc : Int × (List (Int × List CodeBlock) × List DuplicateBlock)) :
    Int × (List (Int × List CodeBlock) × List DuplicateBlock) :=
  sizes.foldl
    (fun acc currentSize =>
      let h := addToRollingHash acc.1
        (lineHashes.getD (startLine + currentSize - 1) 0) (currentSize - 1)
      (h, processBlockHash doc h startLine (startLine + currentSize - 1)
        acc.2))
    acc

/-- The outer loop body of `findDuplicateBlocksOptimized` for one start
line: initial window, then the rolling extensions. -/
def processStart (doc : List String) (lineHashes : List Int)
    (minBlockSize lineCount startLine : Nat)
    (state : List (Int × List CodeBlock) × List DuplicateBlock) :
    List (Int × List CodeBlock) × List DuplicateBlock :=
  (rollWindows doc lineHashes startLine
    (List.range' (minBlockSize + 1) (lineCount - startLine - minBlockSize))
    (initialWindowHash lineHashes startLine minBlockSize,
     processBlockHash doc (initialWindowHash lineHashes startLine minBlockSize)
       startLine (startLine + minBlockSize - 1) state)).2

/-- The first block's size, the sort key of the overlap resolution
(`blocks[0]` is never absent in the source). -/
def dupSize (d : DuplicateBlock) : Nat :=
  match d.blocks with
  | [] => 0
  | b :: _ => b.endLine - b.startLine

/-- Stable insertion of one group into a size-descending list — the
model of `Array.prototype.sort` (stable since ES2019) with comparator
`bSize - aSize`. -/
def insertDesc (x : DuplicateBlock) : List DuplicateBlock →
    List DuplicateBlock
  | [] => [x]
  | y :: ys =>
    if dupSize y ≤ dupSize x then x :: y :: ys else y :: insertDesc x ys

def sortDescBySize : List DuplicateBlock → List DuplicateBlock
  | [] => []
  | x :: xs => insertDesc x (sortDescBySize xs)

/-- `DuplicateCodeAnalyzer.isLineInAnyAddedRange` (range keys are
modelled as the pairs they encode). -/
def isLineInAnyAddedRange (line : Nat) (addedRanges : List (Nat × Nat)) :
    Bool :=
  addedRanges.any (fun r => r.1 ≤ line && line ≤ r.2)

/-- The side-effecting `filter` over one group's blocks: keep a block
only if its range key is new and none of its lines lies in an already
added range; each kept block adds its range immediately. -/
def keepBlocks (addedRanges : List (Nat × Nat)) :
    List CodeBlock → List CodeBlock × List (Nat × Nat)
  | [] => ([], addedRanges)
  | b :: bs =>
    if (b.startLine, b.endLine) ∈ addedRanges then
      keepBlocks addedRanges bs
    else if (List.range' b.startLine (b.endLine + 1 - b.startLine)).any
        (fun l => isLineInAnyAddedRange l addedRanges) then
      keepBlocks addedRanges bs
    else
      ((b :: (keepBlocks (addedRanges ++ [(b.startLine, b.endLine)]) bs).1),
       (keepBlocks (addedRanges ++ [(b.startLine, b.endLine)]) bs).2)

/-- `DuplicateCodeAnalyzer.filterAndVerifyDuplicates`: verify contents
against the first member (hash collisions), deduplicate by content,
sort by size descending, and resolve overlaps largest-first. -/
def filterAndVerifyDuplicates (duplicates : List DuplicateBlock)
    (doc : List String) : List DuplicateBlock :=
  ((sortDescBySize
    ((duplicates.foldl
      (fun m duplicate =>
        match duplicate.blocks with
        | [] => m
        | b0 :: restBlocks =>
          if (b0 :: restBlocks.filter (fun b =>
              dupBlockContent doc b.startLine b.endLine ==
                dupBlockContent doc b0.startLine b0.endLine)).length ≥ 2 then
            mapSet m (dupBlockContent doc b0.startLine b0.endLine)
              ⟨b0 :: restBlocks.filter (fun b =>
                dupBlockContent doc b.startLine b.endLine ==
                  dupBlockContent doc b0.startLine b0.endLine),
               dupBlockContent doc b0.startLine b0.endLine⟩
          else m)
      ([] : List (String × DuplicateBlock))).map Prod.snd)).foldl
    (fun acc duplicate =>
      if (keepBlocks acc.1 duplicate.blocks).1.length ≥ 2 then
        ((keepBlocks acc.1 duplicate.blocks).2,
         acc.2 ++ [⟨(keepBlocks acc.1 duplicate.blocks).1,
           duplicate.content⟩])
      else ((keepBlocks acc.1 duplicate.blocks).2, acc.2))
    ([], [])).2

/-- The per-line hashes of the trimmed document lines (the `lineHashes`
array of `findDuplicateBlocksOptimized`). -/
def lineHashes (doc : List String) : List Int :=
  (List.range doc.length).map (fun i => simpleHash (trimStr (doc.getD i "")))

/-- `DuplicateCodeAnalyzer.findDuplicateBlocksOptimized` on a whole
document (no `blockInfo`): per-line hashes of trimmed lines, all
windows of size ≥ `minBlockSize` via the rolling hash, then
verification, deduplication and overlap resolution. -/
def findDuplicateBlocksOptimized (doc : List String)
    (minBlockSize : Nat) : List DuplicateBlock :=
  if doc.length < minBlockSize * 2 then []
  else
    filterAndVerifyDuplicates
      (((List.range (doc.length - minBlockSize + 1)).foldl
        (fun state startLine =>
          processStart doc (lineHashes doc)
            minBlockSize doc.length startLine state)
        ([], [])).2)
      doc

/-- The hash of the window of `n` lines starting at `s`, as the rolling
loop computes it: the combined initial hash at size `m`, extended one
line at a time. -/
def windowHash (lh : List Int) (m s : Nat) : Nat → Int
  | 0 => initialWindowHash lh s m
  | n + 1 =>
    if n + 1 ≤ m then initialWindowHash lh s m
    else addToRollingHash (windowHash lh m s n) (lh.getD (s + n) 0) n

/-- One window step of the scan: `processBlockHash` at the window
`(s, n)` (start line `s`, `n` lines) with its rolling hash. -/
def hashStep (doc : List String) (lh : List Int) (m : Nat)
    (st : List (Int × List CodeBlock) × List DuplicateBlock)
    (w : Nat × Nat) : List (Int × List CodeBlock) × List DuplicateBlock :=
  processBlockHash doc (windowHash lh m w.1 w.2) w.1 (w.1 + w.2 - 1) st

/-- All windows the scan visits, in visiting order: for every start
line, the sizes `m` up to the end of the document. -/
def scanWindows (m L : Nat) : List (Nat × Nat) :=
  (List.range (L - m + 1)).flatMap
    (fun s => (List.range' m (L - s - m + 1)).map (fun n => (s, n)))

/-- A document of the claim's shape: a five-line snippet, five
unrelated lines, and the same snippet again. -/
def c7doc (a0 a1 a2 a3 a4 g0 g1 g2 g3 g4 : String) : List String :=
  [a0, a1, a2, a3, a4, g0, g1, g2, g3, g4, a0, a1, a2, a3, a4]

/-- The scan windows of a 15-line document for all start lines before
the last one (which contributes only the final window `(10, 5)`). -/
def c7prefixWindows : List (Nat × Nat) :=
  (List.range 10).flatMap (fun s => (List.range' 5 (11 - s)).map (fun n => (s, n)))

/-! ## Concrete fixtures used by witnesses and counterexamples -/

/-- A stand-in for the md5 content hash in concrete scenarios: the
content itself (injective, so collision-free like the theorems
require). -/
def idHash : String → String := fun content => content

/-- A sample issue positioned at line 5. -/
def sampleIssue : CodeIssue :=
  { type := "complexity", message := "function too complex",
    range := { startPos := { line := 5, character := 0 },
               endPos := { line := 5, character := 10 } },
    severity := .warning, suggestions := [] }

/-- A well-formed cache filled to capacity with 100 distinct entries,
`"k_0"` most recent, `"k_99"` least recent. -/
def bigCache : CacheState :=
  { cache := (List.range 100).map (fun n =>
      ("k_" ++ toString n,
       { issues := [], timestamp := 0, startLine := n, endLine := n })),
    recentlyUsed := (List.range 100).map (fun n => "k_" ++ toString n) }

/-- Two back-to-back five-line brace blocks: the second block's
"include the preceding line" rule makes it start on the closing line of
the first. -/
def doc10 : List String :=
  ["function a() \x7b", "  x;", "  y;", "  z;", "\x7d",
   "function b() \x7b", "  p;", "  q;", "  r;", "\x7d"]

/-- A document with no brace blocks at all (fixed-size fallback). -/
def docFlat : List String := ["alpha", "bravo", "charlie"]

/-- 30-line document: a 10-line block (lines 0-9) with an internal
4-line repetition (lines 0-3 again at 5-8), filler at lines 10-19, and
the whole 10-line block repeated at lines 20-29. -/
def c8doc : List String :=
  ["a", "b", "c", "d", "x", "a", "b", "c", "d", "y",
   "f0", "f1", "f2", "f3", "f4", "f5", "f6", "f7", "f8", "f9",
   "a", "b", "c", "d", "x", "a", "b", "c", "d", "y"]

/-- Environment in which a second `scheduleAnalysis` run starts during
the observed run's first suspension. -/
def envNewRunAt0 : Nat → EnvAction :=
  fun j => if j = 0 then .newRun else .keep

/-- Environment in which nothing else happens. -/
def envKeep : Nat → EnvAction := fun _ => .keep

/-- A whole-document high-priority analyzer returning one issue. -/
def aHigh : SchedAnalyzer :=
  { id := "high-a", priority := .high, supportsBlockAnalysis := false,
    enabled := true, analyzeDoc := .ok [sampleIssue],
    analyzeBlock := fun _ => .ok [] }

/-- A whole-document high-priority analyzer that throws. -/
def aThrow : SchedAnalyzer :=
  { id := "bad", priority := .high, supportsBlockAnalysis := false,
    enabled := true, analyzeDoc := .err, analyzeBlock := fun _ => .err }

/-- A second healthy analyzer in the same (high) tier. -/
def aGood : SchedAnalyzer :=
  { id := "good", priority := .high, supportsBlockAnalysis := false,
    enabled := true, analyzeDoc := .ok [sampleIssue],
    analyzeBlock := fun _ => .ok [] }

/-- The simplicity filter as claim C9 words it: the 20-character
threshold applied after stripping whitespace AND punctuation (the code
applies it after stripping whitespace only). -/
def specTooSimpleClaim (content : String) : Bool :=
  decide (((content.data.filter (fun c => !(isJsWhitespace c))).filter
      (fun c => !(isPunct c))).length < 20) ||
  decide (2 * ((content.data.filter (fun c => !(isJsWhitespace c))).filter
      (fun c => !(isPunct c))).length <
    (content.data.filter (fun c => !(isJsWhitespace c))).length)

/-- 19 letters followed by 19 semicolons: 38 non-whitespace
characters, 19 of them meaningful. -/
def simpleCx : String := "abcdefghijklmnopqrs;;;;;;;;;;;;;;;;;;;"

/-! # Theorems -/

/-! ## Association-list map lemmas -/

theorem mapGet_cons {V : Type} (k' : String) (v' : V) (m : List (String × V))
    (k : String) :
    mapGet ((k', v') :: m) k = if k' = k then some v' else mapGet m k := by
  by_cases h : k' = k
  · simp [mapGet, List.find?, h]
  · have hb : (k' == k) = false := by simp [h]
    simp [mapGet, List.find?, hb, h]

theorem mapGet_mapSet_self {V : Type} (m : List (String × V)) (k : String)
    (v : V) : mapGet (mapSet m k v) k = some v := by
  induction m with
  | nil => simp [mapSet, mapGet_cons]
  | cons p rest ih =>
    obtain ⟨k', v'⟩ := p
    by_cases h : k' = k <;> simp [mapSet, h, mapGet_cons, ih]

theorem mapGet_mapSet_ne {V : Type} (m : List (String × V)) {k k' : String}
    (v : V) (h : k' ≠ k) : mapGet (mapSet m k v) k' = mapGet m k' := by
  have h' : k ≠ k' := Ne.symm h
  induction m with
  | nil => simp [mapSet, mapGet_cons, h', mapGet]
  | cons p rest ih =>
    obtain ⟨k₀, v₀⟩ := p
    by_cases h₀ : k₀ = k
    · subst h₀
      simp [mapSet, mapGet_cons, h']
    · simp [mapSet, h₀, mapGet_cons, ih]

theorem mapGet_mapDelete_ne {V : Type} (m : List (String × V)) {k k' : String}
    (h : k' ≠ k) : mapGet (mapDelete m k) k' = mapGet m k' := by
  have h' : k ≠ k' := Ne.symm h
  induction m with
  | nil => simp [mapDelete]
  | cons p rest ih =>
    obtain ⟨k₀, v₀⟩ := p
    by_cases h₀ : k₀ = k
    · subst h₀
      simp [mapDelete, mapGet_cons, h']
    · simp [mapDelete, h₀, mapGet_cons, ih]

theorem keys_mapSet {V : Type} (m : List (String × V)) (k : String) (v : V) :
    (mapSet m k v).map Prod.fst =
      if k ∈ m.map Prod.fst then m.map Prod.fst else m.map Prod.fst ++ [k] := by
  induction m with
  | nil => simp [mapSet]
  | cons p rest ih =>
    obtain ⟨k₀, v₀⟩ := p
    by_cases h₀ : k₀ = k
    · subst h₀; simp [mapSet]
    · by_cases hmem : k ∈ rest.map Prod.fst <;>
        simp [mapSet, h₀, ih, hmem, Ne.symm h₀]

theorem keys_mapDelete {V : Type} (m : List (String × V)) (k : String) :
    (mapDelete m k).map Prod.fst = (m.map Prod.fst).erase k := by
  induction m with
  | nil => simp [mapDelete]
  | cons p rest ih =>
    obtain ⟨k₀, v₀⟩ := p
    by_cases h₀ : k₀ = k
    · subst h₀; simp [mapDelete, List.erase_cons_head]
    · simp [mapDelete, h₀, ih, List.erase_cons_tail, h₀]

theorem mapGet_isSome_iff {V : Type} (m : List (String × V)) (k : String) :
    (mapGet m k).isSome ↔ k ∈ m.map Prod.fst := by
  induction m with
  | nil => simp [mapGet]
  | cons p rest ih =>
    obtain ⟨k₀, v₀⟩ := p
    by_cases h₀ : k₀ = k
    · simp [mapGet_cons, h₀, ih]
    · simp [mapGet_cons, h₀, ih, Ne.symm h₀]

theorem mapGet_eq_none_iff {V : Type} (m : List (String × V)) (k : String) :
    mapGet m k = none ↔ k ∉ m.map Prod.fst := by
  rw [← mapGet_isSome_iff]
  cases mapGet m k <;> simp

theorem mapGet_mapDelete_self {V : Type} (m : List (String × V)) (k : String)
    (hnd : (m.map Prod.fst).Nodup) : mapGet (mapDelete m k) k = none := by
  rw [mapGet_eq_none_iff, keys_mapDelete]
  intro hmem
  exact ((hnd.mem_erase_iff).mp hmem).1 rfl

theorem length_mapSet {V : Type} (m : List (String × V)) (k : String) (v : V) :
    (mapSet m k v).length =
      if k ∈ m.map Prod.fst then m.length else m.length + 1 := by
  have h := congrArg List.length (keys_mapSet m k v)
  by_cases hmem : k ∈ m.map Prod.fst <;> simp [hmem] at h <;> simp [hmem, h]

theorem length_mapDelete_of_mem {V : Type} (m : List (String × V))
    {k : String} (hmem : k ∈ m.map Prod.fst) :
    (mapDelete m k).length = m.length - 1 := by
  have h := congrArg List.length (keys_mapDelete m k)
  simpa [List.length_erase_of_mem hmem] using h

/-! ## LRU well-formedness -/

/-- The structural invariant that the `CacheManager` maintains between
the result map and the recency list: keys are unique on both sides,
they agree as sets, and no key is the empty string (every generated key
contains `"_"`). -/
def SyncPair (c : List (String × CachedResult)) (ru : List String) : Prop :=
  (c.map Prod.fst).Nodup ∧ ru.Nodup ∧
  (∀ k ∈ ru, k ∈ c.map Prod.fst) ∧
  (∀ k ∈ c.map Prod.fst, k ∈ ru) ∧
  "" ∉ ru

def WFCache (s : CacheState) : Prop := SyncPair s.cache s.recentlyUsed

instance (c : List (String × CachedResult)) (ru : List String) :
    Decidable (SyncPair c ru) := by
  unfold SyncPair; infer_instance

instance (s : CacheState) : Decidable (WFCache s) := by
  unfold WFCache; infer_instance

theorem SyncPair.length_eq {c : List (String × CachedResult)}
    {ru : List String} (h : SyncPair c ru) : ru.length = c.length := by
  obtain ⟨hnd, hrd, h1, h2, -⟩ := h
  have hle1 := (List.subperm_of_subset hrd h1).length_le
  have hle2 := (List.subperm_of_subset hnd h2).length_le
  simp only [List.length_map] at hle1 hle2
  omega

theorem cacheKey_ne_empty (h : String → String) (a c : String) :
    cacheKey h a c ≠ "" := by
  intro hc
  have hlen : (cacheKey h a c).length = 0 := by rw [hc]; rfl
  rw [cacheKey] at hlen
  simp only [String.length_append] at hlen
  have h1 : ("_" : String).length = 1 := rfl
  omega

theorem SyncPair.pop {c : List (String × CachedResult)} {ru : List String}
    (h : SyncPair c ru) (hne : ru ≠ []) :
    SyncPair (mapDelete c (ru.getLast hne)) ru.dropLast ∧
    (mapDelete c (ru.getLast hne)).length = c.length - 1 := by
  obtain ⟨hcnd, hrnd, h1, h2, hemp⟩ := h
  have hdecomp : ru.dropLast ++ [ru.getLast hne] = ru :=
    List.dropLast_append_getLast hne
  have htmem : ru.getLast hne ∈ ru := List.getLast_mem hne
  have htkeys : ru.getLast hne ∈ c.map Prod.fst := h1 _ htmem
  have hnd' : ru.dropLast.Nodup ∧ ru.getLast hne ∉ ru.dropLast := by
    have := hrnd
    rw [← hdecomp] at this
    have h' := List.nodup_append.mp this
    exact ⟨h'.1, fun hmem => h'.2.2 hmem (by simp)⟩
  refine ⟨⟨?_, hnd'.1, ?_, ?_, ?_⟩, ?_⟩
  · rw [keys_mapDelete]; exact hcnd.erase _
  · intro k hk
    rw [keys_mapDelete, hcnd.mem_erase_iff]
    have hkru : k ∈ ru := List.mem_of_mem_dropLast hk
    exact ⟨fun he => hnd'.2 (he ▸ hk), h1 _ hkru⟩
  · intro k hk
    rw [keys_mapDelete, hcnd.mem_erase_iff] at hk
    have hkru : k ∈ ru := h2 _ hk.2
    rw [← hdecomp] at hkru
    rcases List.mem_append.mp hkru with hmem | hmem
    · exact hmem
    · exact absurd (by simpa using hmem) hk.1
  · exact fun hmem => hemp (List.mem_of_mem_dropLast hmem)
  · exact length_mapDelete_of_mem c htkeys

theorem getLastD_eq_getLast {ru : List String} (hne : ru ≠ []) :
    ru.getLastD "" = ru.getLast hne := by
  rw [List.getLastD_eq_getLast?, List.getLast?_eq_getLast ru hne]
  rfl

/-- Keys in the first `maxCacheSize` positions of the recency list are
never evicted by `enforceLoop`: the loop only pops the last position,
and only while the map is larger than `maxCacheSize`. -/
theorem enforceLoop_mapGet_take (fuel : Nat) :
    ∀ c ru, SyncPair c ru → ∀ k ∈ ru.take maxCacheSize,
      mapGet (enforceLoop fuel c ru).1 k = mapGet c k := by
  induction fuel with
  | zero => intro c ru _ k _; rfl
  | succ fuel ih =>
    intro c ru hs k hk
    by_cases hcond : maxCacheSize < c.length ∧ ru ≠ []
    · obtain ⟨hlen, hne⟩ := hcond
      have hlast := getLastD_eq_getLast hne
      have ht_ne : ru.getLast hne ≠ "" :=
        fun h'' => hs.2.2.2.2 (h'' ▸ List.getLast_mem hne)
      have hpop := hs.pop hne
      have hrulen : ru.length = c.length := hs.length_eq
      have hdllen : maxCacheSize ≤ ru.dropLast.length := by
        rw [List.length_dropLast]; omega
      have hdecomp : ru.dropLast ++ [ru.getLast hne] = ru :=
        List.dropLast_append_getLast hne
      have htake : ru.take maxCacheSize = ru.dropLast.take maxCacheSize := by
        conv_lhs => rw [← hdecomp]
        exact List.take_append_of_le_length hdllen
      have hk' : k ∈ ru.dropLast.take maxCacheSize := htake ▸ hk
      have hkdl : k ∈ ru.dropLast := List.mem_of_mem_take hk'
      have hknet : k ≠ ru.getLast hne := by
        intro he
        have : ru.getLast hne ∉ ru.dropLast := by
          have := hs.2.1
          rw [← hdecomp] at this
          have h' := List.nodup_append.mp this
          exact fun hmem => h'.2.2 hmem (by simp)
        exact this (he ▸ hkdl)
      rw [enforceLoop, if_pos ⟨hlen, hne⟩]
      simp only [hlast, if_neg ht_ne]
      rw [ih _ _ hpop.1 k hk']
      exact mapGet_mapDelete_ne c hknet
    · rw [enforceLoop, if_neg hcond]

/-- After `enforceLoop` runs with fuel at least the recency-list
length, the map fits in `maxCacheSize`. -/
theorem enforceLoop_length_le (fuel : Nat) :
    ∀ c ru, SyncPair c ru → ru.length ≤ fuel →
      (enforceLoop fuel c ru).1.length ≤ maxCacheSize := by
  induction fuel with
  | zero =>
    intro c ru hs hf
    have hru : ru = [] := List.eq_nil_of_length_eq_zero (Nat.le_zero.mp hf)
    have : c.length = 0 := by
      have := hs.length_eq
      omega
    simp [enforceLoop, this]
  | succ fuel ih =>
    intro c ru hs hf
    by_cases hcond : maxCacheSize < c.length ∧ ru ≠ []
    · obtain ⟨hlen, hne⟩ := hcond
      have hlast := getLastD_eq_getLast hne
      have ht_ne : ru.getLast hne ≠ "" :=
        fun h'' => hs.2.2.2.2 (h'' ▸ List.getLast_mem hne)
      have hpop := hs.pop hne
      rw [enforceLoop, if_pos ⟨hlen, hne⟩]
      simp only [hlast, if_neg ht_ne]
      refine ih _ _ hpop.1 ?_
      rw [List.length_dropLast]
      omega
    · rw [enforceLoop, if_neg hcond]
      rcases Decidable.not_and_iff_or_not.mp hcond with hl | hr
      · exact Nat.not_lt.mp hl
      · have hru : ru = [] := Decidable.not_not.mp hr
        have hlen := hs.length_eq
        rw [hru] at hlen
        simp at hlen
        show c.length ≤ maxCacheSize
        omega

/-- When the map already fits, `enforceCacheLimit`'s loop is the
identity. -/
theorem enforceLoop_of_le (fuel : Nat) (c : List (String × CachedResult))
    (ru : List String) (h : c.length ≤ maxCacheSize) :
    enforceLoop fuel c ru = (c, ru) := by
  cases fuel with
  | zero => rfl
  | succ fuel =>
    have hcond : ¬(maxCacheSize < c.length ∧ ru ≠ []) :=
      fun hc => absurd hc.1 (Nat.not_lt.mpr h)
    rw [enforceLoop, if_neg hcond]

theorem enforceCacheLimit_eq (s : CacheState) :
    enforceCacheLimit s =
      ⟨(enforceLoop s.recentlyUsed.length s.cache s.recentlyUsed).1,
       (enforceLoop s.recentlyUsed.length s.cache s.recentlyUsed).2⟩ := by
  rw [enforceCacheLimit]

theorem storeResults_eq (hf : String → String) (s : CacheState) (A : String)
    (b : BlockInfo) (issues : List CodeIssue) (now : Int) :
    storeResults hf s A b issues now =
      enforceCacheLimit
        ⟨mapSet s.cache (cacheKey hf A b.content)
          { issues := issues, timestamp := now,
            startLine := b.startLine, endLine := b.endLine },
         cacheKey hf A b.content ::
           s.recentlyUsed.erase (cacheKey hf A b.content)⟩ := by
  rw [storeResults, updateRecentlyUsed]

theorem sync_after_set {s : CacheState} (hWF : WFCache s) {key : String}
    (hk : key ≠ "") (v : CachedResult) :
    SyncPair (mapSet s.cache key v) (key :: s.recentlyUsed.erase key) := by
  obtain ⟨hcnd, hrnd, h1, h2, hemp⟩ := hWF
  have hkeys := keys_mapSet s.cache key v
  by_cases hmem : key ∈ s.cache.map Prod.fst
  · rw [if_pos hmem] at hkeys
    refine ⟨hkeys ▸ hcnd, ?_, ?_, ?_, ?_⟩
    · exact List.Nodup.cons (fun hin => (hrnd.mem_erase_iff.mp hin).1 rfl)
        (hrnd.erase _)
    · intro k hkin
      rw [hkeys]
      rcases List.mem_cons.mp hkin with he | hin
      · exact he ▸ hmem
      · exact h1 _ (List.mem_of_mem_erase hin)
    · intro k hkin
      rw [hkeys] at hkin
      by_cases he : k = key
      · exact he ▸ List.mem_cons_self _ _
      · exact List.mem_cons_of_mem _ (hrnd.mem_erase_iff.mpr ⟨he, h2 _ hkin⟩)
    · intro hin
      rcases List.mem_cons.mp hin with he | hin
      · exact hk he.symm
      · exact hemp (List.mem_of_mem_erase hin)
  · rw [if_neg hmem] at hkeys
    have hkru : key ∉ s.recentlyUsed := fun hin => hmem (h1 _ hin)
    have herase : s.recentlyUsed.erase key = s.recentlyUsed :=
      List.erase_of_not_mem hkru
    refine ⟨?_, ?_, ?_, ?_, ?_⟩
    · rw [hkeys]
      exact List.Nodup.append hcnd (List.nodup_singleton _)
        (fun a ha hb => hmem ((List.mem_singleton.mp hb) ▸ ha))
    · rw [herase]; exact List.Nodup.cons hkru hrnd
    · intro k hkin
      rw [hkeys, herase] at *
      rcases List.mem_cons.mp hkin with he | hin
      · exact List.mem_append.mpr (Or.inr (by simp [he]))
      · exact List.mem_append.mpr (Or.inl (h1 _ hin))
    · intro k hkin
      rw [hkeys] at hkin
      rw [herase]
      rcases List.mem_append.mp hkin with hin | hin
      · exact List.mem_cons_of_mem _ (h2 _ hin)
      · exact List.mem_cons.mpr (Or.inl (by simpa using hin))
    · intro hin
      rw [herase] at hin
      rcases List.mem_cons.mp hin with he | hin
      · exact hk he.symm
      · exact hemp hin

/-- C5 (amended) helper: the entry just written survives the limit
enforcement because its key sits at the front of the recency list. -/
theorem storeResults_mapGet_self (hf : String → String) (s : CacheState)
    (A : String) (b : BlockInfo) (issues : List CodeIssue) (now : Int)
    (hWF : WFCache s) :
    mapGet (storeResults hf s A b issues now).cache
        (cacheKey hf A b.content) =
      some { issues := issues, timestamp := now,
             startLine := b.startLine, endLine := b.endLine } := by
  set key := cacheKey hf A b.content with hkey
  have hk : key ≠ "" := cacheKey_ne_empty hf A b.content
  have hsync := sync_after_set hWF hk
    { issues := issues, timestamp := now,
      startLine := b.startLine, endLine := b.endLine }
  rw [storeResults_eq, enforceCacheLimit_eq]
  simp only []
  rw [enforceLoop_mapGet_take _ _ _ hsync key ?_]
  · exact mapGet_mapSet_self _ _ _
  · show key ∈ (key :: s.recentlyUsed.erase key).take maxCacheSize
    rw [show maxCacheSize = 99 + 1 from rfl, List.take_succ_cons]
    exact List.mem_cons_self _ _

theorem sync_after_read {s : CacheState} (hWF : WFCache s) {key : String}
    (hhit : key ∈ s.cache.map Prod.fst) :
    SyncPair s.cache (key :: s.recentlyUsed.erase key) := by
  obtain ⟨hcnd, hrnd, h1, h2, hemp⟩ := hWF
  have hkru : key ∈ s.recentlyUsed := h2 _ hhit
  have hk : key ≠ "" := fun he => hemp (he ▸ hkru)
  refine ⟨hcnd, ?_, ?_, ?_, ?_⟩
  · exact List.Nodup.cons (fun hin => (hrnd.mem_erase_iff.mp hin).1 rfl)
      (hrnd.erase _)
  · intro k hkin
    rcases List.mem_cons.mp hkin with he | hin
    · exact he ▸ hhit
    · exact h1 _ (List.mem_of_mem_erase hin)
  · intro k hkin
    by_cases he : k = key
    · exact he ▸ List.mem_cons_self _ _
    · exact List.mem_cons_of_mem _ (hrnd.mem_erase_iff.mpr ⟨he, h2 _ hkin⟩)
  · intro hin
    rcases List.mem_cons.mp hin with he | hin
    · exact hk he.symm
    · exact hemp (List.mem_of_mem_erase hin)

theorem getCachedResults_single_hit (hf : String → String) (s : CacheState)
    (A : String) (b : BlockInfo) {e : CachedResult}
    (hhit : mapGet s.cache (cacheKey hf A b.content) = some e) :
    getCachedResults hf s A [b] =
      ([some (adjustIssueRanges e.issues b.startLine e.startLine)],
       ⟨s.cache, cacheKey hf A b.content ::
          s.recentlyUsed.erase (cacheKey hf A b.content)⟩) := by
  simp [getCachedResults, hhit, updateRecentlyUsed]

theorem enforceLoop_pop_step (fuel : Nat)
    (c : List (String × CachedResult)) (ru : List String)
    (h1 : maxCacheSize < c.length) (h2 : ru ≠ [])
    (h3 : ru.getLastD "" ≠ "") :
    enforceLoop (fuel + 1) c ru =
      enforceLoop fuel (mapDelete c (ru.getLastD "")) ru.dropLast := by
  rw [enforceLoop, if_pos ⟨h1, h2⟩]
  simp only [if_neg h3]

theorem getLastD_eq_getLast_any {ru : List String} (hne : ru ≠ [])
    (d : String) : ru.getLastD d = ru.getLast hne := by
  rw [List.getLastD_eq_getLast?, List.getLast?_eq_getLast ru hne]
  rfl

/-- C6 helper, the exact eviction shape: storing a fresh key into a
full, well-formed cache inserts the new entry, evicts exactly the tail
of the recency list, and keeps everything else. -/
theorem storeResults_fresh_full (hf : String → String) (s : CacheState)
    (A : String) (b : BlockInfo) (issues : List CodeIssue) (now : Int)
    (hWF : WFCache s) (hfull : s.cache.length = maxCacheSize)
    (hfresh : mapGet s.cache (cacheKey hf A b.content) = none)
    (hne : s.recentlyUsed ≠ []) (k' : String) :
    mapGet (storeResults hf s A b issues now).cache k' =
      if k' = cacheKey hf A b.content then
        some { issues := issues, timestamp := now,
               startLine := b.startLine, endLine := b.endLine }
      else if k' = s.recentlyUsed.getLast hne then none
      else mapGet s.cache k' := by
  set key := cacheKey hf A b.content with hkeydef
  set v : CachedResult :=
    { issues := issues, timestamp := now,
      startLine := b.startLine, endLine := b.endLine } with hvdef
  have hk : key ≠ "" := cacheKey_ne_empty hf A b.content
  have hkeys : key ∉ s.cache.map Prod.fst := (mapGet_eq_none_iff _ _).mp hfresh
  have hkru : key ∉ s.recentlyUsed := fun hin => hkeys (hWF.2.2.1 _ hin)
  have herase : s.recentlyUsed.erase key = s.recentlyUsed :=
    List.erase_of_not_mem hkru
  have hsync := sync_after_set hWF hk v
  rw [herase] at hsync
  set t := s.recentlyUsed.getLast hne with htdef
  have htru : t ∈ s.recentlyUsed := List.getLast_mem hne
  have htkeys : t ∈ s.cache.map Prod.fst := hWF.2.2.1 _ htru
  have htkeys1 : t ∈ (mapSet s.cache key v).map Prod.fst := by
    rw [keys_mapSet, if_neg hkeys]
    exact List.mem_append.mpr (Or.inl htkeys)
  have htne : t ≠ key := fun he => hkru (he ▸ htru)
  have hlen1 : (mapSet s.cache key v).length = maxCacheSize + 1 := by
    rw [length_mapSet, if_neg hkeys, hfull]
  have hgetlast : (key :: s.recentlyUsed).getLastD "" = t := by
    rw [List.getLastD_cons, getLastD_eq_getLast_any hne]
  have ht_ne : t ≠ "" := fun he => hWF.2.2.2.2 (he ▸ htru)
  rw [storeResults_eq, enforceCacheLimit_eq]
  simp only [← hkeydef, ← hvdef, herase]
  rw [show (key :: s.recentlyUsed).length = s.recentlyUsed.length + 1 from rfl]
  rw [enforceLoop_pop_step _ _ _ (by omega) (by simp)
    (by rw [hgetlast]; exact ht_ne)]
  rw [hgetlast]
  have hlen2 : (mapDelete (mapSet s.cache key v) t).length = maxCacheSize := by
    rw [length_mapDelete_of_mem _ htkeys1, hlen1]
    omega
  rw [enforceLoop_of_le _ _ _ (le_of_eq hlen2)]

  by_cases h1 : k' = key
  · subst h1
    rw [if_pos rfl]
    rw [mapGet_mapDelete_ne _ (Ne.symm htne), mapGet_mapSet_self]
  · rw [if_neg h1]
    by_cases h2 : k' = t
    · subst h2
      rw [if_pos rfl]
      exact mapGet_mapDelete_self _ _ hsync.1
    · rw [if_neg h2]
      rw [mapGet_mapDelete_ne _ h2, mapGet_mapSet_ne _ _ h1]

/-- C6 helper: an entry that was just read (and therefore moved to the
front of the recency list) survives any single following store. -/
theorem read_then_store_keeps (hf hf' : String → String) (s : CacheState)
    (A A' : String) (b b' : BlockInfo) (e : CachedResult)
    (issues : List CodeIssue) (now : Int) (hWF : WFCache s)
    (hhit : mapGet s.cache (cacheKey hf A b.content) = some e)
    (hneq : cacheKey hf' A' b'.content ≠ cacheKey hf A b.content) :
    (mapGet (storeResults hf' (getCachedResults hf s A [b]).2 A' b'
        issues now).cache (cacheKey hf A b.content)).isSome := by
  set rkey := cacheKey hf A b.content with hrkeydef
  set k2 := cacheKey hf' A' b'.content with hk2def
  have hrmem : rkey ∈ s.cache.map Prod.fst := by
    rw [← mapGet_isSome_iff, hhit]; rfl
  have hs1 : (getCachedResults hf s A [b]).2 =
      ⟨s.cache, rkey :: s.recentlyUsed.erase rkey⟩ := by
    rw [getCachedResults_single_hit hf s A b hhit]
  have hWF1 : WFCache ⟨s.cache, rkey :: s.recentlyUsed.erase rkey⟩ :=
    sync_after_read hWF hrmem
  have hk2 : k2 ≠ "" := cacheKey_ne_empty hf' A' b'.content
  set v2 : CachedResult :=
    { issues := issues, timestamp := now,
      startLine := b'.startLine, endLine := b'.endLine } with hv2def
  have hsync2 := sync_after_set hWF1 hk2 v2
  have herase2 : (rkey :: s.recentlyUsed.erase rkey).erase k2 =
      rkey :: (s.recentlyUsed.erase rkey).erase k2 := by
    rw [List.erase_cons_tail]
    simp [Ne.symm hneq]
  rw [hs1, storeResults_eq, enforceCacheLimit_eq]
  simp only [← hk2def, ← hv2def]
  rw [enforceLoop_mapGet_take _ _ _ (by simpa [herase2] using hsync2) rkey ?_]
  · rw [mapGet_mapSet_ne _ _ (Ne.symm hneq), hhit]; rfl
  · rw [herase2]
    rw [show maxCacheSize = 98 + 1 + 1 from rfl, List.take_succ_cons,
      List.take_succ_cons]
    exact List.mem_cons_of_mem _ (List.mem_cons_self _ _)

/-- `adjustIssueRanges` written as a single map: every line shifted by
the difference of the anchors (`specShiftIssue` renders the spec's
"shifted by b2.startLine minus b1.startLine"). -/
theorem adjustIssueRanges_eq_map (issues : List CodeIssue) (cur orig : Nat) :
    adjustIssueRanges issues cur orig =
      issues.map (specShiftIssue ((cur : Int) - (orig : Int))) := by
  unfold adjustIssueRanges
  by_cases h : ((cur : Int) - (orig : Int)) = 0
  · rw [if_pos h]
    have hid : ∀ issue : CodeIssue,
        specShiftIssue ((cur : Int) - (orig : Int)) issue = issue := by
      intro issue
      obtain ⟨t, m, r, sev, sug⟩ := issue
      obtain ⟨⟨sl, sc⟩, ⟨el, ec⟩⟩ := r
      simp [specShiftIssue, h]
    have hfun : specShiftIssue ((cur : Int) - (orig : Int)) = id := funext hid
    rw [hfun, List.map_id]
  · rw [if_neg h]
    rfl

/-- When the cache is below capacity, a store is exactly the map
update plus the recency refresh (the eviction loop does nothing). -/
theorem storeResults_small (hf : String → String) (s : CacheState)
    (A : String) (b : BlockInfo) (issues : List CodeIssue) (now : Int)
    (h : s.cache.length < maxCacheSize) :
    storeResults hf s A b issues now =
      ⟨mapSet s.cache (cacheKey hf A b.content)
        { issues := issues, timestamp := now,
          startLine := b.startLine, endLine := b.endLine },
       cacheKey hf A b.content ::
         s.recentlyUsed.erase (cacheKey hf A b.content)⟩ := by
  rw [storeResults_eq, enforceCacheLimit_eq]
  have hlen : (mapSet s.cache (cacheKey hf A b.content)
      { issues := issues, timestamp := now,
        startLine := b.startLine, endLine := b.endLine }).length ≤
      maxCacheSize := by
    rw [length_mapSet]
    by_cases hmem : cacheKey hf A b.content ∈ s.cache.map Prod.fst <;>
      simp [hmem] <;> omega
  rw [enforceLoop_of_le _ _ _ hlen]

/-- A chain of stores under other keys, never filling the cache,
preserves an existing binding. -/
theorem foldl_store_keeps (hf : String → String) (key : String)
    (v : CachedResult) :
    ∀ (L : List (String × BlockInfo × List CodeIssue × Int))
      (st : CacheState),
      mapGet st.cache key = some v →
      st.cache.length + L.length ≤ maxCacheSize →
      (∀ x ∈ L, cacheKey hf x.1 x.2.1.content ≠ key) →
      mapGet ((L.foldl (fun acc x =>
          storeResults hf acc x.1 x.2.1 x.2.2.1 x.2.2.2) st)).cache key =
        some v := by
  intro L
  induction L with
  | nil => intro st h _ _; exact h
  | cons x L ih =>
    intro st h hlen hkeys
    rw [List.foldl_cons]
    have hsmall : st.cache.length < maxCacheSize := by
      simp only [List.length_cons] at hlen
      omega
    have hstore := storeResults_small hf st x.1 x.2.1 x.2.2.1 x.2.2.2 hsmall
    refine ih _ ?_ ?_ ?_
    · rw [hstore]
      show mapGet (mapSet st.cache _ _) key = some v
      rw [mapGet_mapSet_ne _ _ (Ne.symm (hkeys x (List.mem_cons_self _ _)))]
      exact h
    · rw [hstore]
      show (mapSet st.cache _ _).length + L.length ≤ maxCacheSize
      rw [length_mapSet]
      simp only [List.length_cons] at hlen
      by_cases hmem : cacheKey hf x.1 x.2.1.content ∈ st.cache.map Prod.fst
      · rw [if_pos hmem]; omega
      · rw [if_neg hmem]; omega
    · exact fun y hy => hkeys y (List.mem_cons_of_mem _ hy)

/-- C4: the cache is content-addressed.  After storing issues for a
block `b1` under analyzer `A`, and after any further stores whose keys
differ (other content, assuming no hash collision) that do not push the
cache past its capacity, querying a block `b2` with identical content
at a different position yields a hit whose issues are the stored ones
with every line shifted by `b2.startLine - b1.startLine`. -/
theorem C4_content_addressed_reanchoring (hf : String → String)
    (s : CacheState) (A : String) (b1 b2 : BlockInfo)
    (issues : List CodeIssue) (now : Int)
    (L : List (String × BlockInfo × List CodeIssue × Int))
    (hsize : s.cache.length + L.length < maxCacheSize)
    (hkeys : ∀ x ∈ L,
      cacheKey hf x.1 x.2.1.content ≠ cacheKey hf A b1.content)
    (hcontent : b2.content = b1.content) :
    (getCachedResults hf
        (L.foldl (fun acc x =>
            storeResults hf acc x.1 x.2.1 x.2.2.1 x.2.2.2)
          (storeResults hf s A b1 issues now)) A [b2]).1 =
      [some (issues.map
        (specShiftIssue ((b2.startLine : Int) - (b1.startLine : Int))))] := by
  set key := cacheKey hf A b1.content with hkeydef
  set v : CachedResult :=
    { issues := issues, timestamp := now,
      startLine := b1.startLine, endLine := b1.endLine } with hvdef
  have hsmall : s.cache.length < maxCacheSize := by omega
  have hstore := storeResults_small hf s A b1 issues now hsmall
  have h1 : mapGet (storeResults hf s A b1 issues now).cache key = some v := by
    rw [hstore]
    exact mapGet_mapSet_self _ _ _
  have hlen1 : (storeResults hf s A b1 issues now).cache.length + L.length ≤
      maxCacheSize := by
    rw [hstore]
    show (mapSet s.cache _ _).length + L.length ≤ maxCacheSize
    rw [length_mapSet]
    by_cases hmem : key ∈ s.cache.map Prod.fst
    · rw [if_pos hmem]; omega
    · rw [if_neg hmem]; omega
  have hfinal := foldl_store_keeps hf key v L _ h1 hlen1 hkeys
  have hkey2 : cacheKey hf A b2.content = key := by
    rw [hkeydef, hcontent]
  have hhit : mapGet (L.foldl (fun acc x =>
      storeResults hf acc x.1 x.2.1 x.2.2.1 x.2.2.2)
        (storeResults hf s A b1 issues now)).cache
      (cacheKey hf A b2.content) = some v := by
    rw [hkey2]; exact hfinal
  rw [getCachedResults_single_hit hf _ A b2 hhit]
  rw [show v.issues = issues from rfl, show v.startLine = b1.startLine from rfl,
    adjustIssueRanges_eq_map]

/-- C4 witness: a concrete store of one issue for content `"x"` at
lines 3–7, an unrelated intervening store, then a query for content
`"x"` at lines 10–14 re-anchors the issue 7 lines down. -/
theorem C4_content_addressed_reanchoring_witness :
    (getCachedResults idHash
        ([("b", ⟨0, 4, "y"⟩, [], 1)].foldl (fun acc x =>
            storeResults idHash acc x.1 x.2.1 x.2.2.1 x.2.2.2)
          (storeResults idHash emptyCache "a" ⟨3, 7, "x"⟩ [sampleIssue] 0))
        "a" [⟨10, 14, "x"⟩]).1 =
      [some ([sampleIssue].map (specShiftIssue ((10 : Int) - (3 : Int))))] :=
  C4_content_addressed_reanchoring idHash emptyCache "a" ⟨3, 7, "x"⟩
    ⟨10, 14, "x"⟩ [sampleIssue] 0 [("b", ⟨0, 4, "y"⟩, [], 1)]
    (by decide) (by decide) rfl

/-- C5 counterexample: the claim says entries are stored in block-local
coordinates (line minus `startLine`); storing an issue at absolute line
5 for a block starting at line 3 keeps the stored line at 5, not 2. -/
theorem C5_counterexample :
    (mapGet (storeResults idHash emptyCache "a" ⟨3, 7, "x"⟩
          [sampleIssue] 0).cache "a_x").map
        (fun e => e.issues.map (fun i => i.range.startPos.line)) =
      some [5] ∧ ¬((5 : Int) = 5 - 3) := by
  constructor
  · decide
  · decide

/-- C5 (amended): `storeResults` stores the issues exactly as passed
(document-absolute coordinates at storage time) and records the block's
`startLine` as the anchor baseline; re-anchoring happens on read. -/
theorem C5_store_records_absolute_with_anchor (hf : String → String)
    (s : CacheState) (A : String) (b : BlockInfo) (issues : List CodeIssue)
    (now : Int) (hWF : WFCache s) :
    mapGet (storeResults hf s A b issues now).cache (cacheKey hf A b.content) =
      some { issues := issues, timestamp := now,
             startLine := b.startLine, endLine := b.endLine } :=
  storeResults_mapGet_self hf s A b issues now hWF

/-- C5 witness at a concrete store into the empty cache. -/
theorem C5_store_records_absolute_with_anchor_witness :
    mapGet (storeResults idHash emptyCache "a" ⟨3, 7, "x"⟩
        [sampleIssue] 0).cache "a_x" =
      some { issues := [sampleIssue], timestamp := 0,
             startLine := 3, endLine := 7 } :=
  C5_store_records_absolute_with_anchor idHash emptyCache "a" ⟨3, 7, "x"⟩
    [sampleIssue] 0 (by decide)

/-- C6: the LRU discipline of the result cache on a well-formed state:
(1) after any `storeResults` the cache holds at most 100 entries;
(2) storing a fresh key into a full cache evicts exactly the
least-recently-used key (the recency-list tail) and nothing else;
(3) an entry that was just read survives a following store — it is
never evicted before the untouched older entries. -/
theorem C6_lru_bounded_eviction :
    (∀ (hf : String → String) (s : CacheState) (A : String) (b : BlockInfo)
        (issues : List CodeIssue) (now : Int), WFCache s →
        (storeResults hf s A b issues now).cache.length ≤ maxCacheSize) ∧
    (∀ (hf : String → String) (s : CacheState) (A : String) (b : BlockInfo)
        (issues : List CodeIssue) (now : Int), WFCache s →
        s.cache.length = maxCacheSize →
        mapGet s.cache (cacheKey hf A b.content) = none →
        ∀ (hne : s.recentlyUsed ≠ []) (k' : String),
        mapGet (storeResults hf s A b issues now).cache k' =
          if k' = cacheKey hf A b.content then
            some { issues := issues, timestamp := now,
                   startLine := b.startLine, endLine := b.endLine }
          else if k' = s.recentlyUsed.getLast hne then none
          else mapGet s.cache k') ∧
    (∀ (hf hf' : String → String) (s : CacheState) (A A' : String)
        (b b' : BlockInfo) (e : CachedResult) (issues : List CodeIssue)
        (now : Int), WFCache s →
        mapGet s.cache (cacheKey hf A b.content) = some e →
        cacheKey hf' A' b'.content ≠ cacheKey hf A b.content →
        (mapGet (storeResults hf' ((getCachedResults hf s A [b]).2) A' b'
            issues now).cache (cacheKey hf A b.content)).isSome) := by
  refine ⟨?_, ?_, ?_⟩
  · intro hf s A b issues now hWF
    have hk : cacheKey hf A b.content ≠ "" := cacheKey_ne_empty hf A b.content
    have hsync := sync_after_set hWF hk
      { issues := issues, timestamp := now,
        startLine := b.startLine, endLine := b.endLine }
    rw [storeResults_eq, enforceCacheLimit_eq]
    exact enforceLoop_length_le _ _ _ hsync (le_refl _)
  · intro hf s A b issues now hWF hfull hfresh hne k'
    exact storeResults_fresh_full hf s A b issues now hWF hfull hfresh hne k'
  · intro hf hf' s A A' b b' e issues now hWF hhit hneq
    exact read_then_store_keeps hf hf' s A A' b b' e issues now hWF hhit hneq

set_option maxRecDepth 100000 in
/-- C6 witness on the concrete full cache: the size bound after a
101st store, the exact eviction of the least-recently-used key
`"k_99"`, and survival of the just-read key `"k_50"`. -/
theorem C6_lru_bounded_eviction_witness :
    ((storeResults idHash bigCache "a" ⟨0, 0, "new"⟩ [] 0).cache.length ≤
      maxCacheSize) ∧
    (mapGet (storeResults idHash bigCache "a" ⟨0, 0, "new"⟩ [] 0).cache
        "k_99" =
      if ("k_99" : String) = cacheKey idHash "a" "new" then
        some { issues := [], timestamp := 0, startLine := 0, endLine := 0 }
      else if ("k_99" : String) =
          bigCache.recentlyUsed.getLast (by decide) then none
      else mapGet bigCache.cache "k_99") ∧
    ((mapGet (storeResults idHash
        ((getCachedResults idHash bigCache "k" [⟨50, 50, "50"⟩]).2)
        "a" ⟨0, 0, "new"⟩ [] 0).cache
        (cacheKey idHash "k" "50")).isSome) := by
  refine ⟨?_, ?_, ?_⟩
  · exact C6_lru_bounded_eviction.1 idHash bigCache "a" ⟨0, 0, "new"⟩ [] 0
      (by decide)
  · exact C6_lru_bounded_eviction.2.1 idHash bigCache "a" ⟨0, 0, "new"⟩ [] 0
      (by decide) (by decide) (by decide) (by decide) "k_99"
  · exact C6_lru_bounded_eviction.2.2 idHash idHash bigCache "k" "a"
      ⟨50, 50, "50"⟩ ⟨0, 0, "new"⟩
      { issues := [], timestamp := 0, startLine := 50, endLine := 50 } [] 0
      (by decide) (by decide) (by decide)

/-! ## Partitioner theorems (claim C3) -/

/-- A line is covered by some block of the list. -/
def coveredBy (bs : List BlockInfo) (i : Nat) : Prop :=
  ∃ b ∈ bs, b.startLine ≤ i ∧ i ≤ b.endLine

theorem coveredBy_append_left {bs bs' : List BlockInfo} {i : Nat}
    (h : coveredBy bs i) : coveredBy (bs ++ bs') i := by
  obtain ⟨b, hb, hcov⟩ := h
  exact ⟨b, List.mem_append.mpr (Or.inl hb), hcov⟩

theorem fillStep_invariant (doc : List String) (acc : List BlockInfo × Int)
    (b : BlockInfo) (hge : -1 ≤ acc.2)
    (hcov : ∀ i : Nat, (i : Int) ≤ acc.2 → coveredBy acc.1 i) :
    -1 ≤ (fillStep doc acc b).2 ∧
    (∀ i : Nat, (i : Int) ≤ (fillStep doc acc b).2 →
      coveredBy (fillStep doc acc b).1 i) := by
  obtain ⟨filled, lastEnd⟩ := acc
  simp only [fillStep] at *
  constructor
  · omega
  · intro i hi
    have hib : i ≤ b.endLine := by exact_mod_cast hi
    by_cases hold : (i : Int) ≤ lastEnd
    · have hc := hcov i hold
      by_cases hgap : lastEnd + 1 < (b.startLine : Int)
      · rw [if_pos hgap]
        exact coveredBy_append_left (coveredBy_append_left hc)
      · rw [if_neg hgap]
        exact coveredBy_append_left hc
    · push_neg at hold
      by_cases hgap : lastEnd + 1 < (b.startLine : Int)
      · rw [if_pos hgap]
        by_cases hin : i < b.startLine
        · refine ⟨{ startLine := (lastEnd + 1).toNat,
                    endLine := b.startLine - 1,
                    content := getBlockContent doc (lastEnd + 1).toNat
                      (b.startLine - 1) }, ?_, ?_, ?_⟩
          · exact List.mem_append.mpr (Or.inl (List.mem_append.mpr
              (Or.inr (List.mem_singleton_self _))))
          · show (lastEnd + 1).toNat ≤ i
            omega
          · show i ≤ b.startLine - 1
            omega
        · push_neg at hin
          exact ⟨b, List.mem_append.mpr (Or.inr (List.mem_singleton_self _)),
            hin, hib⟩
      · rw [if_neg hgap]
        push_neg at hgap
        have hbs : (b.startLine : Int) ≤ i := by omega
        exact ⟨b, List.mem_append.mpr (Or.inr (List.mem_singleton_self _)),
          by exact_mod_cast hbs, hib⟩

theorem fill_fold_invariant (doc : List String) :
    ∀ (blocks : List BlockInfo) (acc : List BlockInfo × Int),
      -1 ≤ acc.2 → (∀ i : Nat, (i : Int) ≤ acc.2 → coveredBy acc.1 i) →
      -1 ≤ (blocks.foldl (fillStep doc) acc).2 ∧
      (∀ i : Nat, (i : Int) ≤ (blocks.foldl (fillStep doc) acc).2 →
        coveredBy (blocks.foldl (fillStep doc) acc).1 i) := by
  intro blocks
  induction blocks with
  | nil => intro acc h1 h2; exact ⟨h1, h2⟩
  | cons b rest ih =>
    intro acc h1 h2
    rw [List.foldl_cons]
    have hstep := fillStep_invariant doc acc b h1 h2
    exact ih _ hstep.1 hstep.2

/-- The gap-filled natural-block list covers every line of the
document whenever it is produced at all. -/
theorem findNaturalBlocks_covers (doc : List String)
    (hne : findNaturalBlocks doc ≠ []) :
    ∀ i < doc.length, coveredBy (findNaturalBlocks doc) i := by
  intro i hi
  unfold findNaturalBlocks at hne ⊢
  by_cases hb : scanBlocks doc = []
  · rw [if_pos hb] at hne
    exact absurd rfl hne
  · rw [if_neg hb]
    set res := (scanBlocks doc).foldl (fillStep doc) ([], -1) with hresdef
    have hfold := fill_fold_invariant doc (scanBlocks doc) ([], -1)
      (by omega) (fun j hj => absurd hj (by omega))
    rw [← hresdef] at hfold
    rw [fillFinal]
    by_cases hcovd : (i : Int) ≤ res.2
    · exact coveredBy_append_left (hfold.2 i hcovd)
    · push_neg at hcovd
      have hcond : res.2 < (doc.length : Int) - 1 := by omega
      rw [if_pos hcond]
      refine ⟨{ startLine := (res.2 + 1).toNat,
                endLine := doc.length - 1,
                content := getBlockContent doc (res.2 + 1).toNat
                  (doc.length - 1) }, ?_, ?_, ?_⟩
      · exact List.mem_append.mpr (Or.inr (List.mem_singleton_self _))
      · show (res.2 + 1).toNat ≤ i
        have h1 := hfold.1
        omega
      · show i ≤ doc.length - 1
        omega

theorem fixedBlocksLoop_start_ge (doc : List String) (blockSize : Nat) :
    ∀ (fuel s : Nat), ∀ b ∈ fixedBlocksLoop doc blockSize fuel s,
      s ≤ b.startLine := by
  intro fuel
  induction fuel with
  | zero => intro s b hb; simp [fixedBlocksLoop] at hb
  | succ fuel ih =>
    intro s b hb
    rw [fixedBlocksLoop] at hb
    by_cases hs : s < doc.length
    · rw [if_pos hs] at hb
      rcases List.mem_cons.mp hb with he | hin
      · rw [he]
      · have := ih (s + blockSize) b hin
        omega
    · rw [if_neg hs] at hb
      exact absurd hb (List.not_mem_nil b)

theorem fixedBlocksLoop_countP (doc : List String) (blockSize : Nat)
    (hbs : 0 < blockSize) :
    ∀ (fuel s i : Nat), s ≤ i → i < doc.length → i < s + fuel * blockSize →
      (fixedBlocksLoop doc blockSize fuel s).countP
        (fun b => b.startLine ≤ i && i ≤ b.endLine) = 1 := by
  intro fuel
  induction fuel with
  | zero => intro s i h1 h2 h3; omega
  | succ fuel ih =>
    intro s i h1 h2 h3
    have hs : s < doc.length := by omega
    rw [fixedBlocksLoop, if_pos hs, List.countP_cons]
    by_cases hi : i ≤ s + blockSize - 1
    · have hp : (decide (s ≤ i) && decide (i ≤
          min (s + blockSize - 1) (doc.length - 1))) = true := by
        simp only [Bool.and_eq_true, decide_eq_true_eq]
        omega
      rw [if_pos hp]
      have hzero : (fixedBlocksLoop doc blockSize fuel
          (s + blockSize)).countP
          (fun b => b.startLine ≤ i && i ≤ b.endLine) = 0 := by
        rw [List.countP_eq_zero]
        intro b hb
        have hge := fixedBlocksLoop_start_ge doc blockSize fuel
          (s + blockSize) b hb
        simp only [Bool.and_eq_true, decide_eq_true_eq, not_and]
        intro hle
        omega
      rw [hzero]
    · have hnp : ¬(s ≤ i ∧ i ≤ min (s + blockSize - 1) (doc.length - 1)) := by
        intro hand
        have := min_le_left (s + blockSize - 1) (doc.length - 1)
        omega
      rw [if_neg (by simpa using hnp)]
      have := ih (s + blockSize) i (by omega) h2 (by
        have : s + (fuel + 1) * blockSize =
            s + blockSize + fuel * blockSize := by
          ring
        omega)
      omega

/-- C3 counterexample: two adjacent brace blocks overlap — line 4 of
`doc10` (the closing line of the first function, which also becomes the
"preceding line" of the second block) lies in two blocks, so the
partition is not "every line in exactly one block". -/
theorem C3_counterexample :
    ¬ (∀ i, i < doc10.length →
        (divideDocumentIntoBlocks doc10 50).countP
          (fun b => b.startLine ≤ i && i ≤ b.endLine) = 1) := by
  intro h
  have h4 := h 4 (by decide)
  revert h4
  decide

/-- C3 (amended): every line of the document lies in at least one
block of `divideDocumentIntoBlocks`; when the fixed-size fallback is
used (no natural blocks), every line lies in exactly one block.
Natural blocks can overlap on a block boundary line, as
`C3_counterexample` shows. -/
theorem C3_partition_coverage (doc : List String) (blockSize : Nat)
    (hbs : 0 < blockSize) :
    ∀ i < doc.length,
      coveredBy (divideDocumentIntoBlocks doc blockSize) i ∧
      (findNaturalBlocks doc = [] →
        (divideDocumentIntoBlocks doc blockSize).countP
          (fun b => b.startLine ≤ i && i ≤ b.endLine) = 1) := by
  intro i hi
  unfold divideDocumentIntoBlocks
  by_cases hnat : findNaturalBlocks doc = []
  · rw [hnat]
    simp only [List.length_nil, gt_iff_lt, Nat.lt_irrefl, if_false]
    have hcount := fixedBlocksLoop_countP doc blockSize hbs doc.length 0 i
      (Nat.zero_le i) hi (by
        have h1 : doc.length * 1 ≤ doc.length * blockSize :=
          Nat.mul_le_mul_left _ hbs
        omega)
    constructor
    · -- countP = 1 means some block satisfies the predicate
      have hpos : 0 < (fixedBlocksLoop doc blockSize doc.length 0).countP
          (fun b => b.startLine ≤ i && i ≤ b.endLine) := by omega
      rw [List.countP_pos_iff] at hpos
      obtain ⟨b, hb, hpb⟩ := hpos
      simp only [Bool.and_eq_true, decide_eq_true_eq] at hpb
      exact ⟨b, hb, hpb⟩
    · intro _
      exact hcount
  · have hlen : (findNaturalBlocks doc).length > 0 :=
      List.length_pos.mpr hnat
    rw [if_pos hlen]
    exact ⟨findNaturalBlocks_covers doc hnat i hi, fun he => absurd he hnat⟩

/-- C3 witness: both the fallback exactness (flat document) and the
natural-block coverage (`doc10`) at concrete lines. -/
theorem C3_partition_coverage_witness :
    (coveredBy (divideDocumentIntoBlocks docFlat 2) 2 ∧
      (findNaturalBlocks docFlat = [] →
        (divideDocumentIntoBlocks docFlat 2).countP
          (fun b => b.startLine ≤ 2 && 2 ≤ b.endLine) = 1)) ∧
    coveredBy (divideDocumentIntoBlocks doc10 50) 7 :=
  ⟨C3_partition_coverage docFlat 2 (by decide) 2 (by decide),
   (C3_partition_coverage doc10 50 (by decide) 7 (by decide)).1⟩

/-! ## Scheduler theorems (claims C1, C2) -/

/-- C1, evaluated at the failing input: run R1 has one enabled
high-priority analyzer; a second run starts during R1's very first
suspension (the `await analyzer.analyze(...)` of that analyzer), which
is before R1's first tier delay (the delay precedes only the Medium
tier).  R1 still publishes its high-tier issues — the token becomes
stale (`other`) during the await, but `scheduleAnalysis` performs no
token check between the last analyzer of a tier and the
`updateDiagnostics` call, so the stale run's publish goes through.
This contradicts the claim that R1 never publishes. -/
theorem C1_stale_run_still_publishes :
    (scheduleAnalysisModel idHash envNewRunAt0 ["line0"] [aHigh]
        emptyCache).published = [[sampleIssue]] ∧
    tokenAfter envNewRunAt0
        (scheduleAnalysisModel idHash envNewRunAt0 ["line0"] [aHigh]
          emptyCache).yields = .other := by
  constructor
  · rfl
  · rfl

/-- C2, evaluated at the failing input: two enabled high-priority
whole-document analyzers, the first of which throws.  `scheduleAnalysis`
has no try/catch, so the rejected `await analyzer.analyze(...)` aborts
the whole run: the second analyzer never runs and nothing is ever
published — the claim's fault isolation does not exist in the code. -/
theorem C2_throwing_analyzer_aborts_run :
    (scheduleAnalysisModel idHash envKeep ["line0"] [aThrow, aGood]
        emptyCache).published = [] ∧
    (scheduleAnalysisModel idHash envKeep ["line0"] [aThrow, aGood]
        emptyCache).status = .thrown := by
  constructor
  · rfl
  · rfl

/-! ## Batcher theorems (claim C10) -/

theorem batchStep_eq (acc : List (String × List Diagnostic) × List String)
    (p : String × List Diagnostic) :
    batchStep acc p =
      if areDiagnosticsEqual ((mapGet acc.1 p.1).getD []) p.2 then acc
      else (mapSet acc.1 p.1 p.2, acc.2 ++ [p.1]) := rfl

theorem batchFold_other (uri : String) :
    ∀ (pend : List (String × List Diagnostic))
      (vis : List (String × List Diagnostic)) (upd : List String),
      mapGet pend uri = none →
      mapGet (pend.foldl batchStep (vis, upd)).1 uri = mapGet vis uri ∧
      (pend.foldl batchStep (vis, upd)).2.count uri = upd.count uri := by
  intro pend
  induction pend with
  | nil => intro vis upd _; exact ⟨rfl, rfl⟩
  | cons p rest ih =>
    intro vis upd hnone
    obtain ⟨k, d⟩ := p
    rw [mapGet_cons] at hnone
    by_cases hk : k = uri
    · rw [if_pos hk] at hnone
      exact absurd hnone (by simp)
    · rw [if_neg hk] at hnone
      rw [List.foldl_cons, batchStep_eq]
      by_cases hskip : areDiagnosticsEqual ((mapGet vis k).getD []) d = true
      · rw [if_pos (by simpa using hskip)]
        exact ih vis upd hnone
      · rw [if_neg (by simpa using hskip)]
        have hres := ih (mapSet vis k d) (upd ++ [k]) hnone
        refine ⟨?_, ?_⟩
        · show mapGet (rest.foldl batchStep (mapSet vis k d, upd ++ [k])).1
              uri = mapGet vis uri
          rw [hres.1]
          exact mapGet_mapSet_ne vis d (fun he => hk he.symm)
        · show (rest.foldl batchStep (mapSet vis k d, upd ++ [k])).2.count
              uri = upd.count uri
          rw [hres.2, List.count_append]
          have hz : List.count uri [k] = 0 := by
            simp [List.count_cons, Ne.symm hk]
          omega

theorem batchFold_self (uri : String) (d : List Diagnostic) :
    ∀ (pend : List (String × List Diagnostic))
      (vis : List (String × List Diagnostic)) (upd : List String),
      (pend.map Prod.fst).Nodup →
      mapGet pend uri = some d →
      mapGet (pend.foldl batchStep (vis, upd)).1 uri =
        (if areDiagnosticsEqual ((mapGet vis uri).getD []) d then
          mapGet vis uri else some d) ∧
      (pend.foldl batchStep (vis, upd)).2.count uri =
        upd.count uri +
          (if areDiagnosticsEqual ((mapGet vis uri).getD []) d then 0
           else 1) := by
  intro pend
  induction pend with
  | nil => intro vis upd _ hsome; exact absurd hsome (by simp [mapGet])
  | cons p rest ih =>
    intro vis upd hnd hsome
    obtain ⟨k, dk⟩ := p
    rw [mapGet_cons] at hsome
    rw [List.foldl_cons, batchStep_eq]
    by_cases hk : k = uri
    · rw [if_pos hk] at hsome
      subst hk
      have hdk : dk = d := by injection hsome
      subst hdk
      have hrest : mapGet rest k = none := by
        rw [mapGet_eq_none_iff]
        simp only [List.map_cons, List.nodup_cons] at hnd
        exact hnd.1
      by_cases hskip : areDiagnosticsEqual ((mapGet vis k).getD []) dk = true
      · rw [if_pos (by simpa using hskip)]
        have hoth := batchFold_other k rest vis upd hrest
        constructor
        · rw [if_pos hskip]
          exact hoth.1
        · rw [if_pos hskip, hoth.2]
          omega
      · rw [if_neg (by simpa using hskip)]
        have hoth := batchFold_other k rest (mapSet vis k dk) (upd ++ [k])
          hrest
        constructor
        · rw [if_neg hskip]
          show mapGet (rest.foldl batchStep (mapSet vis k dk, upd ++ [k])).1
              k = some dk
          rw [hoth.1, mapGet_mapSet_self]
        · rw [if_neg hskip]
          show (rest.foldl batchStep (mapSet vis k dk, upd ++ [k])).2.count
              k = upd.count k + 1
          rw [hoth.2, List.count_append]
          simp [List.count_cons]
    · rw [if_neg hk] at hsome
      simp only [List.map_cons, List.nodup_cons] at hnd
      by_cases hskip : areDiagnosticsEqual ((mapGet vis k).getD []) dk = true
      · rw [if_pos (by simpa using hskip)]
        exact ih vis upd hnd.2 hsome
      · rw [if_neg (by simpa using hskip)]
        have hres := ih (mapSet vis k dk) (upd ++ [k]) hnd.2 hsome
        have hget : mapGet (mapSet vis k dk) uri = mapGet vis uri :=
          mapGet_mapSet_ne vis dk (fun he => hk he.symm)
        rw [hget] at hres
        constructor
        · show mapGet (rest.foldl batchStep
              (mapSet vis k dk, upd ++ [k])).1 uri = _
          exact hres.1
        · show (rest.foldl batchStep
              (mapSet vis k dk, upd ++ [k])).2.count uri =
            upd.count uri + (if areDiagnosticsEqual
              ((mapGet vis uri).getD []) d = true then 0 else 1)
          rw [hres.2, List.count_append]
          have hz : List.count uri [k] = 0 := by
            simp [List.count_cons, Ne.symm hk]
          omega

/-- C10: two `updateDiagnostics` calls for the same document within
one batch window (the timer was not armed before the first call) with
issue lists that convert to equal diagnostics result in: a single armed
flush timer (the first call arms it, the second does not); a single
pending entry holding the last list (last-write-wins); and, on flush,
at most one visible update — exactly one when the list differs from
what is currently visible, none when it is identical (the no-op skip).
Never two. -/
theorem updateDiagnostics_eq (st : BatcherState) (uri : String)
    (issues : List CodeIssue) :
    updateDiagnostics st uri issues =
      (⟨mapSet st.pendingUpdates uri (issues.map toDiagnostic), true,
        st.visible⟩, !st.timerArmed) := by
  obtain ⟨p, t, v⟩ := st
  cases t <;> simp [updateDiagnostics]

theorem C10_batch_window_single_update (st : BatcherState) (uri : String)
    (issues1 issues2 : List CodeIssue)
    (htimer : st.timerArmed = false)
    (hnodup : (st.pendingUpdates.map Prod.fst).Nodup)
    (heq : areDiagnosticsEqual (issues1.map toDiagnostic)
      (issues2.map toDiagnostic) = true) :
    ((updateDiagnostics st uri issues1).2 = true ∧
     (updateDiagnostics (updateDiagnostics st uri issues1).1 uri
        issues2).2 = false) ∧
    (mapGet (updateDiagnostics (updateDiagnostics st uri issues1).1 uri
        issues2).1.pendingUpdates uri = some (issues2.map toDiagnostic)) ∧
    ((applyBatchUpdate (updateDiagnostics
        (updateDiagnostics st uri issues1).1 uri issues2).1).2.count uri =
      if areDiagnosticsEqual ((mapGet st.visible uri).getD [])
          (issues2.map toDiagnostic) then 0 else 1) ∧
    (mapGet (applyBatchUpdate (updateDiagnostics
        (updateDiagnostics st uri issues1).1 uri issues2).1).1.visible uri =
      if areDiagnosticsEqual ((mapGet st.visible uri).getD [])
          (issues2.map toDiagnostic) then mapGet st.visible uri
      else some (issues2.map toDiagnostic)) := by
  have hpend : mapGet (mapSet (mapSet st.pendingUpdates uri
      (issues1.map toDiagnostic)) uri (issues2.map toDiagnostic)) uri =
      some (issues2.map toDiagnostic) := mapGet_mapSet_self _ _ _
  have hnd2 : ((mapSet (mapSet st.pendingUpdates uri
      (issues1.map toDiagnostic)) uri
        (issues2.map toDiagnostic)).map Prod.fst).Nodup := by
    rw [keys_mapSet, keys_mapSet]
    by_cases hmem : uri ∈ st.pendingUpdates.map Prod.fst
    · rw [if_pos hmem, if_pos hmem]
      exact hnodup
    · rw [if_neg hmem]
      rw [if_pos (show uri ∈ st.pendingUpdates.map Prod.fst ++ [uri] by
        simp)]
      exact List.Nodup.append hnodup (List.nodup_singleton _)
        (fun a ha hb => hmem ((List.mem_singleton.mp hb) ▸ ha))
  have hfold := batchFold_self uri (issues2.map toDiagnostic)
    (mapSet (mapSet st.pendingUpdates uri (issues1.map toDiagnostic)) uri
      (issues2.map toDiagnostic)) st.visible [] hnd2 hpend
  simp only [updateDiagnostics_eq, htimer]
  refine ⟨⟨rfl, rfl⟩, hpend, ?_, ?_⟩
  · show (applyBatchUpdate ⟨mapSet (mapSet st.pendingUpdates uri
        (issues1.map toDiagnostic)) uri (issues2.map toDiagnostic), true,
        st.visible⟩).2.count uri = _
    unfold applyBatchUpdate
    have hcnt := hfold.2
    simp only [List.count_nil, Nat.zero_add] at hcnt
    exact hcnt
  · show mapGet (applyBatchUpdate ⟨mapSet (mapSet st.pendingUpdates uri
        (issues1.map toDiagnostic)) uri (issues2.map toDiagnostic), true,
        st.visible⟩).1.visible uri = _
    unfold applyBatchUpdate
    exact hfold.1

/-- C10 witness: an empty batcher, two identical one-issue updates for
one document, then the flush: one timer armed, one pending entry, one
visible update. -/
theorem C10_batch_window_single_update_witness :
    ((updateDiagnostics ⟨[], false, []⟩ "file:///a.ts" [sampleIssue]).2 =
        true ∧
     (updateDiagnostics (updateDiagnostics ⟨[], false, []⟩ "file:///a.ts"
        [sampleIssue]).1 "file:///a.ts" [sampleIssue]).2 = false) ∧
    (mapGet (updateDiagnostics (updateDiagnostics ⟨[], false, []⟩
        "file:///a.ts" [sampleIssue]).1 "file:///a.ts"
        [sampleIssue]).1.pendingUpdates "file:///a.ts" =
      some ([sampleIssue].map toDiagnostic)) ∧
    ((applyBatchUpdate (updateDiagnostics (updateDiagnostics
        ⟨[], false, []⟩ "file:///a.ts" [sampleIssue]).1 "file:///a.ts"
        [sampleIssue]).1).2.count "file:///a.ts" =
      if areDiagnosticsEqual ((mapGet ([] :
          List (String × List Diagnostic)) "file:///a.ts").getD [])
          ([sampleIssue].map toDiagnostic) then 0 else 1) ∧
    (mapGet (applyBatchUpdate (updateDiagnostics (updateDiagnostics
        ⟨[], false, []⟩ "file:///a.ts" [sampleIssue]).1 "file:///a.ts"
        [sampleIssue]).1).1.visible "file:///a.ts" =
      if areDiagnosticsEqual ((mapGet ([] :
          List (String × List Diagnostic)) "file:///a.ts").getD [])
          ([sampleIssue].map toDiagnostic) then
        mapGet ([] : List (String × List Diagnostic)) "file:///a.ts"
      else some ([sampleIssue].map toDiagnostic)) :=
  C10_batch_window_single_update ⟨[], false, []⟩ "file:///a.ts"
    [sampleIssue] [sampleIssue] rfl (by decide) (by decide)

/-! ## Simplicity-filter theorems (claim C9) -/

/-- C9 counterexample: on 19 letters plus 19 semicolons the claim's
condition (fewer than 20 characters after stripping whitespace and
punctuation) says "discard", but `isBlockTooSimple` keeps it: the
code's 20-character threshold counts punctuation (38 ≥ 20) and the
ratio is exactly one half, not below it. -/
theorem C9_counterexample :
    isBlockTooSimple simpleCx = false ∧ specTooSimpleClaim simpleCx = true := by
  constructor
  · decide
  · decide

/-- C9 (amended): a block is discarded by the simplicity filter iff
its content has fewer than 20 non-whitespace characters (punctuation
included), or its meaningful-character ratio — non-punctuation
characters over all non-whitespace characters — is below one half. -/
theorem C9_simplicity_filter (content : String) :
    isBlockTooSimple content = true ↔
      ((content.data.filter (fun c => !(isJsWhitespace c))).length < 20 ∨
       2 * ((content.data.filter (fun c => !(isJsWhitespace c))).filter
          (fun c => !(isPunct c))).length <
        (content.data.filter (fun c => !(isJsWhitespace c))).length) := by
  unfold isBlockTooSimple
  by_cases h : (content.data.filter (fun c => !(isJsWhitespace c))).length < 20
  · rw [if_pos h]
    simp [h]
  · rw [if_neg h]
    simp [h]

/-! ## Overlap-resolution theorems (claim C8) -/

theorem keepBlocks_drop {ar : List (Nat × Nat)} {b : CodeBlock}
    {bs : List CodeBlock}
    (h : (b.startLine, b.endLine) ∈ ar ∨
      (List.range' b.startLine (b.endLine + 1 - b.startLine)).any
        (fun l => isLineInAnyAddedRange l ar) = true) :
    keepBlocks ar (b :: bs) = keepBlocks ar bs := by
  conv_lhs => rw [keepBlocks]
  by_cases hmem : (b.startLine, b.endLine) ∈ ar
  · rw [if_pos hmem]
  · rw [if_neg hmem]
    rcases h with h | h
    · exact absurd h hmem
    · rw [if_pos h]

theorem keepBlocks_keep {ar : List (Nat × Nat)} {b : CodeBlock}
    {bs : List CodeBlock}
    (h1 : (b.startLine, b.endLine) ∉ ar)
    (h2 : (List.range' b.startLine (b.endLine + 1 - b.startLine)).any
      (fun l => isLineInAnyAddedRange l ar) = false) :
    keepBlocks ar (b :: bs) =
      ((b :: (keepBlocks (ar ++ [(b.startLine, b.endLine)]) bs).1),
       (keepBlocks (ar ++ [(b.startLine, b.endLine)]) bs).2) := by
  conv_lhs => rw [keepBlocks]
  rw [if_neg h1, if_neg (by rw [h2]; exact Bool.false_ne_true)]

/-- C8: overlap resolution considers verified groups largest-first and
drops a group whose members' lines are already claimed.  For a 10-line
duplicate pair and a smaller verified pair lying entirely inside the
first 10-line repetition, only the 10-line group is reported,
whichever order the candidate groups arrive in the input list. -/
theorem C8_larger_duplicates_win (doc : List String)
    (s1 e1 s2 e2 t1 u1 t2 u2 : Nat) (cA cB : String)
    (h10 : e1 = s1 + 9) (h10b : e2 = s2 + 9) (hord : e1 < s2)
    (hsmall : u1 - t1 < 9) (ht1 : t1 ≤ u1) (ht2 : t2 ≤ u2)
    (hin1 : s1 ≤ t1 ∧ u1 ≤ e1) (hin2 : s1 ≤ t2 ∧ u2 ≤ e1)
    (hver10 : dupBlockContent doc s2 e2 = dupBlockContent doc s1 e1)
    (hver5 : dupBlockContent doc t2 u2 = dupBlockContent doc t1 u1)
    (hdistinct : dupBlockContent doc t1 u1 ≠ dupBlockContent doc s1 e1) :
    filterAndVerifyDuplicates
      [⟨[⟨t1, u1⟩, ⟨t2, u2⟩], cA⟩, ⟨[⟨s1, e1⟩, ⟨s2, e2⟩], cB⟩] doc =
      [⟨[⟨s1, e1⟩, ⟨s2, e2⟩], dupBlockContent doc s1 e1⟩] := by
  unfold filterAndVerifyDuplicates
  -- the verification/deduplication fold
  rw [List.foldl_cons, List.foldl_cons, List.foldl_nil]
  simp only [List.filter_cons, List.filter_nil, beq_iff_eq, hver5, hver10,
    if_pos rfl, decide_eq_true_eq, if_true]
  rw [if_pos (by simp), if_pos (by simp)]
  have hmap : mapSet (mapSet ([] : List (String × DuplicateBlock))
      (dupBlockContent doc t1 u1)
      ⟨[⟨t1, u1⟩, ⟨t2, u2⟩], dupBlockContent doc t1 u1⟩)
      (dupBlockContent doc s1 e1)
      ⟨[⟨s1, e1⟩, ⟨s2, e2⟩], dupBlockContent doc s1 e1⟩ =
      [(dupBlockContent doc t1 u1,
        ⟨[⟨t1, u1⟩, ⟨t2, u2⟩], dupBlockContent doc t1 u1⟩),
       (dupBlockContent doc s1 e1,
        ⟨[⟨s1, e1⟩, ⟨s2, e2⟩], dupBlockContent doc s1 e1⟩)] := by
    rw [show mapSet ([] : List (String × DuplicateBlock))
        (dupBlockContent doc t1 u1)
        ⟨[⟨t1, u1⟩, ⟨t2, u2⟩], dupBlockContent doc t1 u1⟩ =
        [(dupBlockContent doc t1 u1,
          ⟨[⟨t1, u1⟩, ⟨t2, u2⟩], dupBlockContent doc t1 u1⟩)] from rfl]
    rw [mapSet]
    rw [if_neg (by simp [hdistinct])]
    rfl
  rw [hmap]
  simp only [List.map_cons, List.map_nil]
  have hcond : ¬(dupSize ⟨[⟨s1, e1⟩, ⟨s2, e2⟩], dupBlockContent doc s1 e1⟩ ≤
      dupSize ⟨[⟨t1, u1⟩, ⟨t2, u2⟩], dupBlockContent doc t1 u1⟩) := by
    simp only [dupSize]
    omega
  have hsort : sortDescBySize
      [⟨[⟨t1, u1⟩, ⟨t2, u2⟩], dupBlockContent doc t1 u1⟩,
       ⟨[⟨s1, e1⟩, ⟨s2, e2⟩], dupBlockContent doc s1 e1⟩] =
      [⟨[⟨s1, e1⟩, ⟨s2, e2⟩], dupBlockContent doc s1 e1⟩,
       ⟨[⟨t1, u1⟩, ⟨t2, u2⟩], dupBlockContent doc t1 u1⟩] := by
    simp only [sortDescBySize, insertDesc, if_neg hcond]
  rw [hsort]
  rw [List.foldl_cons]
  -- the 10-line group survives whole
  have hk1 : keepBlocks [] [⟨s1, e1⟩, ⟨s2, e2⟩] =
      ([⟨s1, e1⟩, ⟨s2, e2⟩], [(s1, e1), (s2, e2)]) := by
    rw [keepBlocks_keep (by simp) (by simp [isLineInAnyAddedRange])]
    rw [keepBlocks_keep (by simp; omega) (by
      rw [List.any_eq_false]
      intro l hl
      rw [List.mem_range'_1] at hl
      have hl1 : s2 ≤ l := hl.1
      have hl2 : l < s2 + (e2 + 1 - s2) := hl.2
      simp [isLineInAnyAddedRange]
      omega)]
    rfl
  rw [hk1]
  dsimp only
  rw [if_pos (by simp)]
  rw [List.foldl_cons, List.foldl_nil]
  dsimp only
  -- the nested smaller group is dropped entirely
  have hd1 : ∀ (bs : List CodeBlock) (a b : Nat), s1 ≤ a → b ≤ e1 → a ≤ b →
      keepBlocks [(s1, e1), (s2, e2)] (⟨a, b⟩ :: bs) =
        keepBlocks [(s1, e1), (s2, e2)] bs := by
    intro bs a b ha hb hab
    refine keepBlocks_drop (Or.inr ?_)
    rw [List.any_eq_true]
    refine ⟨a, ?_, ?_⟩
    · show a ∈ List.range' a (b + 1 - a)
      rw [List.mem_range'_1]
      omega
    · show isLineInAnyAddedRange a [(s1, e1), (s2, e2)] = true
      simp [isLineInAnyAddedRange]
      omega
  rw [hd1 [⟨t2, u2⟩] t1 u1 hin1.1 hin1.2 ht1,
    hd1 [] t2 u2 hin2.1 hin2.2 ht2]
  rw [show keepBlocks [(s1, e1), (s2, e2)] ([] : List CodeBlock) =
    ([], [(s1, e1), (s2, e2)]) from rfl]
  dsimp only
  rw [if_neg (by simp)]
  rfl

/-- Witness for C8 at a concrete 30-line document: a 10-line block
(lines 0-9, containing an internal 5-line repetition) duplicated at
lines 20-29, with the nested 5-line pair at lines 0-3/5-8. -/
theorem C8_larger_duplicates_win_witness :
    filterAndVerifyDuplicates
      [⟨[⟨0, 3⟩, ⟨5, 8⟩], "w"⟩, ⟨[⟨0, 9⟩, ⟨20, 29⟩], "v"⟩] c8doc =
      [⟨[⟨0, 9⟩, ⟨20, 29⟩], dupBlockContent c8doc 0 9⟩] :=
  C8_larger_duplicates_win c8doc 0 9 20 29 0 3 5 8 "w" "v"
    rfl rfl (by decide) (by decide) (by decide) (by decide)
    ⟨by decide, by decide⟩ ⟨by decide, by decide⟩
    (by decide) (by decide) (by decide)


/-! ## Duplicate-window scan theorems (claim C7) -/

theorem mapGet_nil {K V : Type} [BEq K] (k : K) :
    mapGet ([] : List (K × V)) k = none := rfl

theorem mapGet_cons' {K V : Type} [BEq K] (k' : K) (v' : V)
    (m : List (K × V)) (k : K) :
    mapGet ((k', v') :: m) k =
      if k' == k then some v' else mapGet m k := by
  simp only [mapGet, List.find?]
  cases h : k' == k <;> simp [h]

theorem mapSet_fresh {K V : Type} [BEq K] (m : List (K × V)) (k : K)
    (v : V) (h : mapGet m k = none) : mapSet m k v = m ++ [(k, v)] := by
  induction m with
  | nil => rfl
  | cons p rest ih =>
    rw [mapGet_cons'] at h
    by_cases hb : p.1 == k
    · rw [if_pos hb] at h
      exact absurd h (by simp)
    · rw [if_neg hb] at h
      show mapSet (p :: rest) k v = p :: rest ++ [(k, v)]
      rw [show mapSet (p :: rest) k v =
        if p.1 == k then (p.1, v) :: rest else p :: mapSet rest k v from rfl]
      rw [if_neg hb, ih h]
      rfl

theorem mapGet_append_none {K V : Type} [BEq K] (m1 m2 : List (K × V))
    (k : K) (h : mapGet m1 k = none) :
    mapGet (m1 ++ m2) k = mapGet m2 k := by
  induction m1 with
  | nil => rfl
  | cons p rest ih =>
    rw [mapGet_cons'] at h
    by_cases hb : p.1 == k
    · rw [if_pos hb] at h
      exact absurd h (by simp)
    · rw [if_neg hb] at h
      show mapGet ((p.1, p.2) :: (rest ++ m2)) k = mapGet m2 k
      rw [mapGet_cons', if_neg hb, ih h]

theorem windowHash_base (lh : List Int) (m s : Nat) :
    windowHash lh m s m = initialWindowHash lh s m := by
  cases m with
  | zero => rfl
  | succ n => rw [windowHash, if_pos (Nat.le_refl (n + 1))]

theorem rollWindows_eq (doc : List String) (lh : List Int) (s m : Nat) :
    ∀ (len k : Nat), m ≤ k →
    ∀ (st : List (Int × List CodeBlock) × List DuplicateBlock),
    rollWindows doc lh s (List.range' (k + 1) len) (windowHash lh m s k, st) =
      (windowHash lh m s (k + len),
       List.foldl (hashStep doc lh m) st
         ((List.range' (k + 1) len).map (fun n => (s, n)))) := by
  intro len
  induction len with
  | zero => intro k _ st; rfl
  | succ len ih =>
    intro k hk st
    rw [show List.range' (k + 1) (len + 1) =
      (k + 1) :: List.range' (k + 2) len from rfl]
    rw [show rollWindows doc lh s ((k + 1) :: List.range' (k + 2) len)
        (windowHash lh m s k, st) =
      rollWindows doc lh s (List.range' (k + 2) len)
        (addToRollingHash (windowHash lh m s k)
          (lh.getD (s + (k + 1) - 1) 0) (k + 1 - 1),
         processBlockHash doc
          (addToRollingHash (windowHash lh m s k)
            (lh.getD (s + (k + 1) - 1) 0) (k + 1 - 1))
          s (s + (k + 1) - 1) st) from rfl]
    have hh : addToRollingHash (windowHash lh m s k)
        (lh.getD (s + (k + 1) - 1) 0) (k + 1 - 1) = windowHash lh m s (k + 1) := by
      rw [windowHash, if_neg (by omega)]
      rw [show s + (k + 1) - 1 = s + k from by omega,
        show k + 1 - 1 = k from rfl]
    rw [hh]
    rw [ih (k + 1) (by omega)]
    rw [show k + 1 + len = k + (len + 1) from by omega]
    rw [List.map_cons, List.foldl_cons]
    rfl

theorem processStart_eq (doc : List String) (lh : List Int)
    (m L s : Nat)
    (st : List (Int × List CodeBlock) × List DuplicateBlock) :
    processStart doc lh m L s st =
      List.foldl (hashStep doc lh m) st
        ((List.range' m (L - s - m + 1)).map (fun n => (s, n))) := by
  rw [processStart]
  rw [show processBlockHash doc (initialWindowHash lh s m) s (s + m - 1) st =
    hashStep doc lh m st (s, m) from by
      rw [hashStep, windowHash_base]]
  rw [show (initialWindowHash lh s m, hashStep doc lh m st (s, m)) =
    (windowHash lh m s m, hashStep doc lh m st (s, m)) from by
      rw [windowHash_base]]
  rw [rollWindows_eq doc lh s m (L - s - m) m (Nat.le_refl m)]
  rw [show List.range' m (L - s - m + 1) =
    m :: List.range' (m + 1) (L - s - m) from rfl]
  rw [List.map_cons, List.foldl_cons]

theorem scan_eq (doc : List String) (lh : List Int) (m L : Nat) :
    ∀ (starts : List Nat)
      (st : List (Int × List CodeBlock) × List DuplicateBlock),
    starts.foldl (fun state s => processStart doc lh m L s state) st =
      List.foldl (hashStep doc lh m) st
        (starts.flatMap (fun s =>
          (List.range' m (L - s - m + 1)).map (fun n => (s, n)))) := by
  intro starts
  induction starts with
  | nil => intro st; rfl
  | cons s rest ih =>
    intro st
    rw [List.foldl_cons, List.flatMap_cons, List.foldl_append]
    rw [processStart_eq, ih]


theorem scan_fresh (doc : List String) (lh : List Int) (m : Nat) :
    ∀ (ws : List (Nat × Nat)) (mp : List (Int × List CodeBlock))
      (d : List DuplicateBlock),
    (∀ w ∈ ws, mapGet mp (windowHash lh m w.1 w.2) = none) →
    ws.Pairwise (fun a b =>
      windowHash lh m a.1 a.2 ≠ windowHash lh m b.1 b.2) →
    List.foldl (hashStep doc lh m) (mp, d) ws =
      (mp ++ ws.map (fun w => (windowHash lh m w.1 w.2,
        [(⟨w.1, w.1 + w.2 - 1⟩ : CodeBlock)])), d) := by
  intro ws
  induction ws with
  | nil => intro mp d _ _; simp
  | cons w rest ih =>
    intro mp d hfresh hpw
    rw [List.foldl_cons]
    have hstep : hashStep doc lh m (mp, d) w =
        (mp ++ [(windowHash lh m w.1 w.2,
          [(⟨w.1, w.1 + w.2 - 1⟩ : CodeBlock)])], d) := by
      rw [hashStep]
      rw [processBlockHash]
      rw [show ((mp, d) :
        List (Int × List CodeBlock) × List DuplicateBlock).1 = mp from rfl]
      rw [hfresh w (by simp)]
      rw [mapSet_fresh mp _ _ (hfresh w (by simp))]
    rw [hstep]
    rw [List.pairwise_cons] at hpw
    rw [ih (mp ++ [(windowHash lh m w.1 w.2,
        [(⟨w.1, w.1 + w.2 - 1⟩ : CodeBlock)])]) d ?_ hpw.2]
    · rw [List.map_cons, List.append_assoc]
      rfl
    · intro w' hw'
      rw [mapGet_append_none _ _ _ (hfresh w' (by simp [hw']))]
      rw [mapGet_cons']
      rw [if_neg (by simp [hpw.1 w' hw'])]
      rfl

theorem mapGet_map_window (lh : List Int) (m : Nat) :
    ∀ (ws : List (Nat × Nat)) (w0 : Nat × Nat), w0 ∈ ws →
    (∀ w ∈ ws, windowHash lh m w.1 w.2 = windowHash lh m w0.1 w0.2 →
      w = w0) →
    mapGet (ws.map (fun w => (windowHash lh m w.1 w.2,
      [(⟨w.1, w.1 + w.2 - 1⟩ : CodeBlock)]))) (windowHash lh m w0.1 w0.2) =
      some [⟨w0.1, w0.1 + w0.2 - 1⟩] := by
  intro ws
  induction ws with
  | nil => intro w0 h _; exact absurd h (by simp)
  | cons w rest ih =>
    intro w0 hmem huniq
    rw [List.map_cons, mapGet_cons']
    by_cases hb : windowHash lh m w.1 w.2 == windowHash lh m w0.1 w0.2
    · rw [if_pos hb]
      have hw : w = w0 := huniq w (by simp) (by simpa using hb)
      rw [hw]
    · rw [if_neg hb]
      have hw0 : w0 ∈ rest := by
        rcases List.mem_cons.mp hmem with h | h
        · subst h
          exact absurd (beq_self_eq_true _) hb
        · exact h
      exact ih w0 hw0 (fun w' hw' he => huniq w' (by simp [hw']) he)


/-- C7: for a document made of a five-line snippet, five unrelated
lines, then the same snippet again, the duplicate detector reports
exactly one duplicate group, with exactly the two snippet copies
`[0, 4]` and `[10, 14]` as members.  The informal "distinct non-trivial
snippet lines, unrelated gap lines" is rendered as the two hypotheses:
no two scan windows share a rolling hash except the two aligned snippet
copies, and the snippet content passes the simplicity filter. -/
theorem C7_snippet_twice_single_group
    (a0 a1 a2 a3 a4 g0 g1 g2 g3 g4 : String)
    (Hinj : ∀ p ∈ scanWindows 5 15, ∀ q ∈ scanWindows 5 15,
      windowHash (lineHashes (c7doc a0 a1 a2 a3 a4 g0 g1 g2 g3 g4)) 5 p.1 p.2 =
        windowHash (lineHashes (c7doc a0 a1 a2 a3 a4 g0 g1 g2 g3 g4)) 5 q.1 q.2 →
      p = q ∨ (p = (0, 5) ∧ q = (10, 5)) ∨ (p = (10, 5) ∧ q = (0, 5)))
    (Hsimple : isBlockTooSimple
      (dupBlockContent (c7doc a0 a1 a2 a3 a4 g0 g1 g2 g3 g4) 0 4) = false) :
    findDuplicateBlocksOptimized (c7doc a0 a1 a2 a3 a4 g0 g1 g2 g3 g4) 5 =
      [⟨[⟨0, 4⟩, ⟨10, 14⟩],
        dupBlockContent (c7doc a0 a1 a2 a3 a4 g0 g1 g2 g3 g4) 0 4⟩] := by
  have hL : (c7doc a0 a1 a2 a3 a4 g0 g1 g2 g3 g4).length = 15 := rfl
  have hsplit : scanWindows 5 15 = c7prefixWindows ++ [(10, 5)] := by decide
  have h105 : ((10, 5) : Nat × Nat) ∉ c7prefixWindows := by decide
  have hsub : ∀ w ∈ c7prefixWindows, w ∈ scanWindows 5 15 := by
    intro w hw
    rw [hsplit]
    exact List.mem_append_left _ hw
  have hnd : c7prefixWindows.Pairwise (· ≠ ·) := by decide
  have hpw : c7prefixWindows.Pairwise (fun a b =>
      windowHash (lineHashes (c7doc a0 a1 a2 a3 a4 g0 g1 g2 g3 g4)) 5 a.1 a.2 ≠
      windowHash (lineHashes (c7doc a0 a1 a2 a3 a4 g0 g1 g2 g3 g4)) 5 b.1 b.2) := by
    refine hnd.imp_of_mem ?_
    intro a b ha hb hne heq
    rcases Hinj a (hsub a ha) b (hsub b hb) heq with h | ⟨h1, h2⟩ | ⟨h1, h2⟩
    · exact hne h
    · exact h105 (h2 ▸ hb)
    · exact h105 (h1 ▸ ha)
  have huniq : ∀ w ∈ c7prefixWindows,
      windowHash (lineHashes (c7doc a0 a1 a2 a3 a4 g0 g1 g2 g3 g4)) 5 w.1 w.2 =
        windowHash (lineHashes (c7doc a0 a1 a2 a3 a4 g0 g1 g2 g3 g4)) 5
          (0, 5).1 (0, 5).2 →
      w = (0, 5) := by
    intro w hw heq
    rcases Hinj w (hsub w hw) (0, 5) (by decide) heq with h | ⟨h1, h2⟩ | ⟨h1, h2⟩
    · exact h
    · exact h1
    · exact absurd (h1 ▸ hw) h105
  rw [findDuplicateBlocksOptimized]
  rw [if_neg (by rw [hL]; omega)]
  rw [hL]
  rw [scan_eq]
  rw [show (List.range (15 - 5 + 1)).flatMap (fun s =>
    (List.range' 5 (15 - s - 5 + 1)).map (fun n => (s, n))) =
    scanWindows 5 15 from rfl]
  rw [hsplit]
  rw [List.foldl_append]
  rw [scan_fresh (c7doc a0 a1 a2 a3 a4 g0 g1 g2 g3 g4)
    (lineHashes (c7doc a0 a1 a2 a3 a4 g0 g1 g2 g3 g4)) 5 c7prefixWindows
    [] [] (fun w _ => rfl) hpw]
  simp only [List.nil_append]
  rw [List.foldl_cons, List.foldl_nil]
  rw [hashStep]
  dsimp only
  have hwp : windowHash (lineHashes (c7doc a0 a1 a2 a3 a4 g0 g1 g2 g3 g4))
      5 10 5 =
      windowHash (lineHashes (c7doc a0 a1 a2 a3 a4 g0 g1 g2 g3 g4)) 5 0 5 := by
    rw [windowHash_base, windowHash_base]
    rfl
  rw [hwp]
  rw [processBlockHash]
  dsimp only
  have hget : mapGet (c7prefixWindows.map (fun w =>
      (windowHash (lineHashes (c7doc a0 a1 a2 a3 a4 g0 g1 g2 g3 g4)) 5 w.1 w.2,
       [(⟨w.1, w.1 + w.2 - 1⟩ : CodeBlock)])))
      (windowHash (lineHashes (c7doc a0 a1 a2 a3 a4 g0 g1 g2 g3 g4)) 5 0 5) =
      some [⟨0, 0 + 5 - 1⟩] :=
    mapGet_map_window _ 5 c7prefixWindows (0, 5) (by decide) huniq
  rw [hget]
  dsimp only
  rw [show (0:Nat) + 5 - 1 = 4 from rfl, show (10:Nat) + 5 - 1 = 14 from rfl]
  rw [if_pos (show ([(⟨0, 4⟩ : CodeBlock)]).length = 1 from rfl)]
  have hcont : dupBlockContent (c7doc a0 a1 a2 a3 a4 g0 g1 g2 g3 g4) 10 14 =
      dupBlockContent (c7doc a0 a1 a2 a3 a4 g0 g1 g2 g3 g4) 0 4 := rfl
  rw [hcont, Hsimple]
  rw [if_pos (show (!false) = true from rfl)]
  simp only [List.nil_append, List.singleton_append]
  rw [filterAndVerifyDuplicates]
  rw [List.foldl_cons, List.foldl_nil]
  dsimp only
  simp only [List.filter_cons, List.filter_nil, beq_iff_eq, hcont,
    if_pos rfl, decide_eq_true_eq, if_true]
  rw [if_pos (by simp)]
  rw [show mapSet ([] : List (String × DuplicateBlock))
      (dupBlockContent (c7doc a0 a1 a2 a3 a4 g0 g1 g2 g3 g4) 0 4)
      ⟨[⟨0, 4⟩, ⟨10, 14⟩],
        dupBlockContent (c7doc a0 a1 a2 a3 a4 g0 g1 g2 g3 g4) 0 4⟩ =
    [(dupBlockContent (c7doc a0 a1 a2 a3 a4 g0 g1 g2 g3 g4) 0 4,
      ⟨[⟨0, 4⟩, ⟨10, 14⟩],
        dupBlockContent (c7doc a0 a1 a2 a3 a4 g0 g1 g2 g3 g4) 0 4⟩)] from rfl]
  simp only [List.map_cons, List.map_nil]
  rw [show sortDescBySize [⟨[⟨0, 4⟩, ⟨10, 14⟩],
      dupBlockContent (c7doc a0 a1 a2 a3 a4 g0 g1 g2 g3 g4) 0 4⟩] =
    [⟨[⟨0, 4⟩, ⟨10, 14⟩],
      dupBlockContent (c7doc a0 a1 a2 a3 a4 g0 g1 g2 g3 g4) 0 4⟩] from by
      simp [sortDescBySize, insertDesc]]
  rw [List.foldl_cons, List.foldl_nil]
  have hk : keepBlocks [] [(⟨0, 4⟩ : CodeBlock), ⟨10, 14⟩] =
      ([⟨0, 4⟩, ⟨10, 14⟩], [(0, 4), (10, 14)]) := by decide
  rw [hk]
  dsimp only
  rw [if_pos (by simp)]
  rfl

set_option maxRecDepth 400000 in
/-- Witness for C7 at a concrete snippet and gap. -/
theorem C7_snippet_twice_single_group_witness :
    findDuplicateBlocksOptimized (c7doc
      "const alpha = computeValue(101)"
      "const bravo = computeValue(202)"
      "const charlie = computeValue(303)"
      "const delta = computeValue(404)"
      "return alpha + bravo + charlie + delta"
      "let gapOne = readInput(11)"
      "let gapTwo = readInput(22)"
      "let gapThree = readInput(33)"
      "let gapFour = readInput(44)"
      "let gapFive = readInput(55)") 5 =
      [⟨[⟨0, 4⟩, ⟨10, 14⟩],
        dupBlockContent (c7doc
          "const alpha = computeValue(101)"
          "const bravo = computeValue(202)"
          "const charlie = computeValue(303)"
          "const delta = computeValue(404)"
          "return alpha + bravo + charlie + delta"
          "let gapOne = readInput(11)"
          "let gapTwo = readInput(22)"
          "let gapThree = readInput(33)"
          "let gapFour = readInput(44)"
          "let gapFive = readInput(55)") 0 4⟩] :=
  C7_snippet_twice_single_group
    "const alpha = computeValue(101)"
    "const bravo = computeValue(202)"
    "const charlie = computeValue(303)"
    "const delta = computeValue(404)"
    "return alpha + bravo + charlie + delta"
    "let gapOne = readInput(11)"
    "let gapTwo = readInput(22)"
    "let gapThree = readInput(33)"
    "let gapFour = readInput(44)"
    "let gapFive = readInput(55)"
    (by decide) (by decide)

end CleanCode
